import Mathlib

/-!
Verification of the gearman-server job broker core (`libgearman/server_job.c`,
`libgearman/server_function.c`) against its natural-language specification.

The C sources are shallowly embedded:

* `uint32_t` arithmetic is modelled as `Nat` with explicit `% U32` where the
  C computation can wrap (the hash).  Bytes of `char` buffers are modelled as
  `Nat` values `0..255` (the hash reads them through `char`; the embedding
  uses the unsigned reading, which agrees with the source on all ASCII data
  such as job handles).
* Intrusive doubly-linked lists and hash chains are modelled as Lean lists of
  ids.  Each of the two job hash tables (`server->unique_hash`,
  `server->job_hash`) keeps its chains in most-recently-inserted-first order
  per bucket (`GEARMAN_HASH_ADD` pushes on the bucket head), so the whole
  table is modelled as one recency-ordered list of job ids; a chain walk of
  bucket `k` is the walk of that list restricted to jobs whose stored key
  hashes to bucket `k`.
* Jobs are identified by ids drawn from a monotonic counter; the C free-list
  recycling of `gearman_server_job_st` slots only reuses memory and is
  invisible at this level.
* The persistent-queue adapter callbacks and `gearman_server_io_packet_add`
  are external collaborators; their return codes enter the model as oracle
  parameters, and the adapter calls performed are recorded in an event list.
* Allocation failure paths (`malloc` returning `NULL`) are not modelled:
  allocation is assumed to succeed.
* Client registrations (`server_client` attach in `gearman_server_job_add`,
  the client-list teardown in `gearman_server_job_free`) touch only client
  bookkeeping whose code (`server_client.c`) is outside the given sources and
  outside every claim; the model keeps just the `server_client == NULL` test
  that gates the persistence calls.
-/

namespace Gearman

/-- `2^32`, the modulus of `uint32_t` arithmetic. -/
def U32 : Nat := 4294967296

/-- `GEARMAN_JOB_HASH_SIZE` from `constants.h`. -/
def GEARMAN_JOB_HASH_SIZE : Nat := 383

/-- `GEARMAN_DEFAULT_MAX_QUEUE_SIZE` from `constants.h`. -/
def GEARMAN_DEFAULT_MAX_QUEUE_SIZE : Nat := 0

/-- The loop of `_server_job_hash` (server_job.c:413-418): for each byte,
`value += *ptr++; value += (value << 10); value ^= (value >> 6);` in
`uint32_t` arithmetic. -/
def serverJobHashLoop : Nat → List Nat → Nat
  | value, [] => value
  | value, b :: rest =>
    let v1 := (value + b) % U32
    let v2 := (v1 + v1 * 1024) % U32
    let v3 := Nat.xor v2 (v2 / 64)
    serverJobHashLoop v3 rest

/-- `_server_job_hash` (server_job.c:408-424): run the loop from 0, then
`value += (value << 3); value ^= (value >> 11); value += (value << 15);`
and map a result of 0 to 1. -/
def serverJobHash (key : List Nat) : Nat :=
  let value := serverJobHashLoop 0 key
  let v1 := (value + value * 8) % U32
  let v2 := Nat.xor v1 (v1 / 2048)
  let v3 := (v2 + v2 * 32768) % U32
  if v3 = 0 then 1 else v3

/-- Modelled from the spec's words for the hash, one mixing step:
"for each byte, `v += b; v += v<<10; v ^= v>>6`". -/
def hashMixByte (v b : Nat) : Nat :=
  let x := (v + b) % U32
  let y := (x + x * 2 ^ 10) % U32
  Nat.xor y (y / 2 ^ 6)

/-- Modelled from the spec's words for the hash finalization:
"finalize with `v += v<<3; v ^= v>>11; v += v<<15`". -/
def hashFinalize (v : Nat) : Nat :=
  let x := (v + v * 2 ^ 3) % U32
  let y := Nat.xor x (x / 2 ^ 11)
  (y + y * 2 ^ 15) % U32

/-- Modelled from the spec's words: the 32-bit incremental mixing hash over
bytes, starting from 0, with a result of 0 mapped to 1. -/
def hashSpec (bytes : List Nat) : Nat :=
  let v := hashFinalize (bytes.foldl hashMixByte 0)
  if v = 0 then 1 else v

theorem serverJobHashLoop_eq_foldl (l : List Nat) (v : Nat) :
    serverJobHashLoop v l = l.foldl hashMixByte v := by
  induction l generalizing v with
  | nil => rfl
  | cons b rest ih =>
    rw [serverJobHashLoop, List.foldl_cons, ih]
    norm_num [hashMixByte]

/-- C9.  `_server_job_hash` computes exactly the recurrence the spec
describes (per-byte mixing from 0, then finalization, then 0 mapped to 1),
and consequently never returns 0. -/
theorem server_job_hash_spec_and_nonzero :
    (∀ key : List Nat, serverJobHash key = hashSpec key) ∧
    (∀ key : List Nat, serverJobHash key ≠ 0) := by
  constructor
  · intro key
    rw [serverJobHash, hashSpec, serverJobHashLoop_eq_foldl]
    norm_num [hashFinalize]
  · intro key
    rw [serverJobHash]
    split <;> simp_all

/-- `gearman_job_priority_t` (constants.h): HIGH, NORMAL, LOW (in that scan
order; `GEARMAN_JOB_PRIORITY_MAX` is only a bound). -/
inductive Priority
  | high
  | normal
  | low
  deriving DecidableEq, Repr

/-- The `gearman_return_t` codes this development distinguishes; every other
enum value is carried through `other` with its position. -/
inductive GRet
  | success
  | jobExists
  | jobQueueFull
  | memoryAllocationFailure
  | other (n : Nat)
  deriving DecidableEq, Repr

/-- `gearman_server_job_st`, the fields the claims touch.  `unique` holds the
bytes stored by `snprintf` into the 64-byte buffer (so: NUL-free, at most 63
bytes); `handle` is the `job_handle_count` value rendered into `job_handle`;
`queuedFlag` is `GEARMAN_SERVER_JOB_QUEUED`; `ignore` is
`GEARMAN_SERVER_JOB_IGNORE`.  The `job_handle_key` is not carried: it only
selects the handle-table bucket and no claim observes it. -/
structure SJob where
  fn : List Nat
  priority : Priority
  uniqueKey : Nat
  unique : List Nat
  data : List Nat
  handle : Nat
  worker : Option Nat
  queuedFlag : Bool
  ignore : Bool
  numerator : Nat
  denominator : Nat
  deriving DecidableEq, Repr

/-- `gearman_server_function_st`: counters, the three per-priority job lists
(head..tail order; `job_list`/`job_end` pairs in C), and the connections of
the worker sessions on `worker_list` (in list order). -/
structure SFn where
  maxQueueSize : Nat
  jobTotal : Nat
  jobRunning : Nat
  jobCount : Nat
  listHigh : List Nat
  listNorm : List Nat
  listLow : List Nat
  workerCons : List Nat
  deriving DecidableEq, Repr

/-- A worker connection (`gearman_server_con_st`): the
`GEARMAN_SERVER_CON_SLEEPING` option bit, the `noop_queued` flag, the number
of NOOP packets enqueued on it so far (standing in for the outbound packet
FIFO), and its `worker_list` as the declared function names in order. -/
structure SCon where
  sleeping : Bool
  noopQueued : Bool
  noops : Nat
  workerFns : List (List Nat)
  deriving DecidableEq, Repr

/-- `gearman_server_st`: the `GEARMAN_SERVER_QUEUE_REPLAY` option bit, the
handle counter, a fresh-id counter for jobs, the function list (most recently
created first, as `GEARMAN_LIST_ADD` prepends), the live jobs keyed by id,
the two hash tables as recency lists of job ids, and the connections. -/
structure Server where
  replay : Bool
  jobHandleCount : Nat
  nextJobId : Nat
  functions : List (List Nat × SFn)
  jobs : List (Nat × SJob)
  uniqueHash : List Nat
  jobHash : List Nat
  cons : List (Nat × SCon)
  deriving DecidableEq, Repr

/-- Association-list lookup (first entry wins, like a pointer walk). -/
def alookup {κ : Type} [DecidableEq κ] {α : Type} (i : κ) : List (κ × α) → Option α
  | [] => none
  | (k, v) :: t => if k = i then some v else alookup i t

/-- Update the (first) entry with the given key in place. -/
def aupdate {κ : Type} [DecidableEq κ] {α : Type} (i : κ) (g : α → α) :
    List (κ × α) → List (κ × α)
  | [] => []
  | (k, v) :: t => if k = i then (k, g v) :: t else (k, v) :: aupdate i g t

/-- Remove the (first) entry with the given key. -/
def aerase {κ : Type} [DecidableEq κ] {α : Type} (i : κ) :
    List (κ × α) → List (κ × α)
  | [] => []
  | (k, v) :: t => if k = i then t else (k, v) :: aerase i t

theorem alookup_aupdate {κ : Type} [DecidableEq κ] {α : Type} (i j : κ)
    (g : α → α) (l : List (κ × α)) :
    alookup i (aupdate j g l) =
      if j = i then (alookup i l).map g else alookup i l := by
  induction l with
  | nil => simp [alookup, aupdate]
  | cons p t ih =>
    obtain ⟨k, v⟩ := p
    by_cases hk : k = j
    · subst hk
      by_cases hi : k = i <;> simp [aupdate, alookup, hi, ih]
    · by_cases hi : k = i
      · subst hi
        simp [aupdate, alookup, hk, Ne.symm hk]
      · simp [aupdate, alookup, hk, hi, ih]

theorem aupdate_keys {κ : Type} [DecidableEq κ] {α : Type} (i : κ) (g : α → α)
    (l : List (κ × α)) : (aupdate i g l).map Prod.fst = l.map Prod.fst := by
  induction l with
  | nil => rfl
  | cons p t ih =>
    obtain ⟨k, v⟩ := p
    by_cases hk : k = i <;> simp [aupdate, hk, ih]

theorem aupdate_length {κ : Type} [DecidableEq κ] {α : Type} (i : κ) (g : α → α)
    (l : List (κ × α)) : (aupdate i g l).length = l.length := by
  induction l with
  | nil => rfl
  | cons p t ih =>
    obtain ⟨k, v⟩ := p
    by_cases hk : k = i <;> simp [aupdate, hk, ih]

theorem aerase_keys_of_not_mem {κ : Type} [DecidableEq κ] {α : Type} (i : κ)
    (l : List (κ × α)) (h : i ∉ l.map Prod.fst) : aerase i l = l := by
  induction l with
  | nil => rfl
  | cons p t ih =>
    obtain ⟨k, v⟩ := p
    simp only [List.map_cons, List.mem_cons] at h
    push_neg at h
    simp [aerase, Ne.symm h.1, ih h.2]

theorem alookup_aerase_ne {κ : Type} [DecidableEq κ] {α : Type} (i j : κ)
    (l : List (κ × α)) (h : i ≠ j) : alookup i (aerase j l) = alookup i l := by
  induction l with
  | nil => rfl
  | cons p t ih =>
    obtain ⟨k, v⟩ := p
    by_cases hk : k = j
    · subst hk
      have hki : ¬k = i := Ne.symm h
      simp [aerase, alookup, hki]
    · simp only [aerase, if_neg hk, alookup]
      by_cases hi : k = i <;> simp [hi, ih]

theorem alookup_mem_keys {κ : Type} [DecidableEq κ] {α : Type} {i : κ}
    {l : List (κ × α)} {v : α} (h : alookup i l = some v) :
    i ∈ l.map Prod.fst := by
  induction l with
  | nil => simp [alookup] at h
  | cons p t ih =>
    obtain ⟨k, w⟩ := p
    by_cases hk : k = i
    · simp [hk]
    · simp only [alookup, hk, if_false] at h
      simp [ih h]

theorem alookup_not_mem_keys {κ : Type} [DecidableEq κ] {α : Type} {i : κ}
    {l : List (κ × α)} (h : i ∉ l.map Prod.fst) : alookup i l = none := by
  cases hl : alookup i l with
  | none => rfl
  | some v => exact absurd (alookup_mem_keys hl) h

theorem alookup_aerase_self {κ : Type} [DecidableEq κ] {α : Type} (i : κ)
    (l : List (κ × α)) (h : (l.map Prod.fst).Nodup) :
    alookup i (aerase i l) = none := by
  induction l with
  | nil => rfl
  | cons p t ih =>
    obtain ⟨k, v⟩ := p
    simp only [List.map_cons, List.nodup_cons] at h
    by_cases hk : k = i
    · subst hk
      simp only [aerase, if_pos rfl]
      exact alookup_not_mem_keys h.1
    · simp [aerase, alookup, hk, ih h.2]

theorem aerase_keys {κ : Type} [DecidableEq κ] {α : Type} (i : κ)
    (l : List (κ × α)) :
    (aerase i l).map Prod.fst = (l.map Prod.fst).erase i := by
  induction l with
  | nil => rfl
  | cons p t ih =>
    obtain ⟨k, v⟩ := p
    by_cases hk : k = i
    · subst hk
      simp [aerase, List.erase_cons]
    · simp [aerase, hk, List.erase_cons, Ne.symm hk, ih]

theorem aupdate_of_not_mem {κ : Type} [DecidableEq κ] {α : Type} (i : κ)
    (g : α → α) (l : List (κ × α)) (h : i ∉ l.map Prod.fst) :
    aupdate i g l = l := by
  induction l with
  | nil => rfl
  | cons p t ih =>
    obtain ⟨k, v⟩ := p
    simp only [List.map_cons, List.mem_cons] at h
    push_neg at h
    simp [aupdate, Ne.symm h.1, ih h.2]

theorem aupdate_aupdate {κ : Type} [DecidableEq κ] {α : Type} (i : κ)
    (g h : α → α) (l : List (κ × α)) :
    aupdate i g (aupdate i h l) = aupdate i (fun x => g (h x)) l := by
  induction l with
  | nil => rfl
  | cons p t ih =>
    obtain ⟨k, v⟩ := p
    by_cases hk : k = i <;> simp [aupdate, hk, ih]

theorem aupdate_congr {κ : Type} [DecidableEq κ] {α : Type} (i : κ)
    (g h : α → α) (l : List (κ × α)) (hg : ∀ x, g x = h x) :
    aupdate i g l = aupdate i h l := by
  induction l with
  | nil => rfl
  | cons p t ih =>
    obtain ⟨k, v⟩ := p
    by_cases hk : k = i <;> simp [aupdate, hk, ih, hg]

theorem aupdate_id {κ : Type} [DecidableEq κ] {α : Type} (i : κ)
    (l : List (κ × α)) : aupdate i (fun x => x) l = l := by
  induction l with
  | nil => rfl
  | cons p t ih =>
    obtain ⟨k, v⟩ := p
    by_cases hk : k = i <;> simp [aupdate, hk, ih]

theorem aerase_length_of_mem {κ : Type} [DecidableEq κ] {α : Type} {i : κ}
    {l : List (κ × α)} (h : i ∈ l.map Prod.fst) :
    (aerase i l).length + 1 = l.length := by
  induction l with
  | nil => simp at h
  | cons p t ih =>
    obtain ⟨k, v⟩ := p
    by_cases hk : k = i
    · simp [aerase, hk]
    · simp only [List.map_cons, List.mem_cons] at h
      rcases h with h | h
      · exact absurd h.symm hk
      · simp [aerase, hk, ih h]

/-- The bytes a C string read of a byte buffer yields: everything before the
first NUL. -/
def cstr (l : List Nat) : List Nat := l.takeWhile (fun b => b != 0)

/-- The bytes `snprintf(server_job->unique, GEARMAN_UNIQUE_SIZE, "%.*s",
(uint32_t)unique_size, unique)` stores (server_job.c:117-118): at most
`unique_size` bytes, stopping at a NUL, truncated to the 63 bytes that fit
the 64-byte buffer before the terminating NUL. -/
def storeUnique (uniq : List Nat) : List Nat := (cstr uniq).take 63

/-- Fresh `gearman_server_function_st` as built by
`gearman_server_function_create` (server_function.c:56-78): zeroed, then
`max_queue_size = GEARMAN_DEFAULT_MAX_QUEUE_SIZE`. -/
def newSFn : SFn :=
  { maxQueueSize := GEARMAN_DEFAULT_MAX_QUEUE_SIZE, jobTotal := 0,
    jobRunning := 0, jobCount := 0, listHigh := [], listNorm := [],
    listLow := [], workerCons := [] }

/-- `gearman_server_function_get` (server_function.c:20-54): find the
function with byte-identical name, else create it (prepended onto
`server->function_list` by `GEARMAN_LIST_ADD`). -/
def serverFunctionGet (s : Server) (fname : List Nat) : Server :=
  match alookup fname s.functions with
  | some _ => s
  | none => { s with functions := (fname, newSFn) :: s.functions }

def updateFn (s : Server) (n : List Nat) (g : SFn → SFn) : Server :=
  { s with functions := aupdate n g s.functions }

def updateJob (s : Server) (i : Nat) (g : SJob → SJob) : Server :=
  { s with jobs := aupdate i g s.jobs }

def updateCon (s : Server) (c : Nat) (g : SCon → SCon) : Server :=
  { s with cons := aupdate c g s.cons }

/-- `job_list[priority]` of a function, head-to-tail. -/
def SFn.plist (f : SFn) : Priority → List Nat
  | .high => f.listHigh
  | .normal => f.listNorm
  | .low => f.listLow

def SFn.setPlist (f : SFn) : Priority → List Nat → SFn
  | .high, l => { f with listHigh := l }
  | .normal, l => { f with listNorm := l }
  | .low, l => { f with listLow := l }

/-- The predicate `_server_job_get_unique` (server_job.c:426-458) applies to
each job on the walked chain of bucket `ukey % GEARMAN_JOB_HASH_SIZE`: when
`data_size == 0` compare the function, the full 32-bit unique key and the
stored unique C string against `unique`; otherwise compare the function, the
key, the data size and the data bytes (`unique` then points at the workload
data).  A dead id is never on a chain; the model skips it. -/
def uniqueJobMatch (s : Server) (ukey : Nat) (fname uniq : List Nat)
    (dataSize : Nat) (i : Nat) : Bool :=
  match alookup i s.jobs with
  | none => false
  | some j =>
    j.uniqueKey % GEARMAN_JOB_HASH_SIZE == ukey % GEARMAN_JOB_HASH_SIZE &&
    (if dataSize == 0 then
      j.fn == fname && j.uniqueKey == ukey && j.unique == cstr uniq
    else
      j.fn == fname && j.uniqueKey == ukey && j.data.length == dataSize &&
        j.data == uniq)

/-- `_server_job_get_unique`: the first job on the bucket chain that
matches.  The recency list restricted to the bucket is exactly the chain. -/
def serverJobGetUnique (s : Server) (ukey : Nat) (fname uniq : List Nat)
    (dataSize : Nat) : Option Nat :=
  s.uniqueHash.find? (uniqueJobMatch s ukey fname uniq dataSize)

/-- The NOOP loop of `gearman_server_job_queue` (server_job.c:371-388): for
each worker session on the function's `worker_list`, skip it when
`!noop_queued && !sleeping`; otherwise enqueue a NOOP packet on its
connection (`gearman_server_io_packet_add`, whose result is the oracle
`ioRet` applied to the number of packets attempted so far), returning its
error on failure, and set `noop_queued`. -/
def noopLoop (s : Server) (workers : List Nat) (ioRet : Nat → GRet)
    (idx : Nat) : GRet × Server :=
  match workers with
  | [] => (GRet.success, s)
  | c :: rest =>
    match alookup c s.cons with
    | none => noopLoop s rest ioRet idx
    | some con =>
      if !con.noopQueued && !con.sleeping then
        noopLoop s rest ioRet idx
      else
        let r := ioRet idx
        if r = GRet.success then
          noopLoop
            (updateCon s c fun cc =>
              { cc with noops := cc.noops + 1, noopQueued := true })
            rest ioRet (idx + 1)
        else (r, s)

/-- Appending a job at the tail of `job_list[p]` with the `job_end` pointer,
plus `job_count++` (server_job.c:390-399). -/
def fnEnqueue (f : SFn) (p : Priority) (i : Nat) : SFn :=
  let g := f.setPlist p (f.plist p ++ [i])
  { g with jobCount := g.jobCount + 1 }

/-- The state after the entry bookkeeping of `gearman_server_job_queue`
(server_job.c:361-369): when a worker was assigned, its function's
`job_running` drops (and `function_next` is nulled, implicit in the list
model); then `worker`, `numerator` and `denominator` are cleared. -/
def queuedMid (s : Server) (i : Nat) (j : SJob) : Server :=
  updateJob
    (if j.worker.isSome then
      updateFn s j.fn (fun f => { f with jobRunning := f.jobRunning - 1 })
    else s)
    i (fun jj => { jj with worker := none, numerator := 0, denominator := 0 })

/-- `gearman_server_job_queue` (server_job.c:356-402).  The job id must name
a live job (every C caller passes one); on a dead id the model is the
identity.  Counters are `uint32_t`; the decrement is modelled on `Nat`, the
wrap of decrementing 0 being unreachable in the states considered. -/
def serverJobQueue (s : Server) (i : Nat) (ioRet : Nat → GRet) :
    GRet × Server :=
  match alookup i s.jobs with
  | none => (GRet.success, s)
  | some j =>
    let s2 := queuedMid s i j
    let wl := ((alookup j.fn s2.functions).map SFn.workerCons).getD []
    let rs := noopLoop s2 wl ioRet 0
    if rs.1 = GRet.success then
      (GRet.success, updateFn rs.2 j.fn (fun f => fnEnqueue f j.priority i))
    else rs

/-- `gearman_server_job_free` (server_job.c:224-255): adjust the function's
`job_running` (when a worker was assigned) and `job_total`, and unlink the
job from both hash tables and from existence.  The client-list teardown and
the worker's `job` pointer clear touch only structures outside the model;
the free-list recycling only reuses memory. -/
def serverJobFree (s : Server) (i : Nat) : Server :=
  match alookup i s.jobs with
  | none => s
  | some j =>
    let s1 := if j.worker.isSome then
        updateFn s j.fn (fun f => { f with jobRunning := f.jobRunning - 1 })
      else s
    let s2 := updateFn s1 j.fn (fun f => { f with jobTotal := f.jobTotal - 1 })
    { s2 with uniqueHash := s2.uniqueHash.erase i,
              jobHash := s2.jobHash.erase i,
              jobs := aerase i s2.jobs }

theorem serverJobFree_jobs_length {s : Server} {i : Nat} {j : SJob}
    (h : alookup i s.jobs = some j) :
    (serverJobFree s i).jobs.length + 1 = s.jobs.length := by
  have hm := alookup_mem_keys h
  cases hw : j.worker.isSome <;>
    simp only [serverJobFree, h, hw, updateFn, Bool.false_eq_true, if_true,
      if_false, ite_true, ite_false] <;>
    exact aerase_length_of_mem hm

/-- The first half of `gearman_server_job_take` (server_job.c:320-328): walk
`server_con->worker_list` and stop at the first worker session whose
function has `job_count != 0`. -/
def conFirstBusyFn (s : Server) : List (List Nat) → Option (List Nat × SFn)
  | [] => none
  | n :: rest =>
    match alookup n s.functions with
    | none => conFirstBusyFn s rest
    | some f => if f.jobCount ≠ 0 then some (n, f) else conFirstBusyFn s rest

/-- The priority scan of `gearman_server_job_take` (server_job.c:330-337):
first non-empty `job_list[p]` for `p` from HIGH to LOW, and its head.  When
`job_count != 0` but every list is empty the C code reads
`job_list[GEARMAN_JOB_PRIORITY_MAX]`, out of bounds; that state is excluded
by the list/counter invariant and the model returns `none`. -/
def fnFirstJob (f : SFn) : Option (Priority × Nat) :=
  match f.listHigh with
  | h :: _ => some (Priority.high, h)
  | [] =>
    match f.listNorm with
    | h :: _ => some (Priority.normal, h)
    | [] =>
      match f.listLow with
      | h :: _ => some (Priority.low, h)
      | [] => none

/-- `gearman_server_job_take` (server_job.c:313-354): find the first busy
capable function, pop the head of its first non-empty priority list (the pop
and the counter updates go through `server_job->function`, i.e. the popped
job's own function, which the invariant keeps equal to the scanned one —
the model pops the head by taking the tail), assign the worker's connection
and bump `job_running`; a popped job with `GEARMAN_SERVER_JOB_IGNORE` is
freed and the take retried. -/
def serverJobTake (s : Server) (cid : Nat) : Option Nat × Server :=
  match alookup cid s.cons with
  | none => (none, s)
  | some con =>
    match conFirstBusyFn s con.workerFns with
    | none => (none, s)
    | some (_, f) =>
      match fnFirstJob f with
      | none => (none, s)
      | some (p, h) =>
        match _hj : alookup h s.jobs with
        | none => (none, s)
        | some j =>
          let s1 := updateFn s j.fn (fun g =>
            let g1 := g.setPlist p (g.plist p).tail
            { g1 with jobCount := g1.jobCount - 1 })
          let s2 := updateJob s1 h (fun jj => { jj with worker := some cid })
          let s3 := updateFn s2 j.fn
            (fun g => { g with jobRunning := g.jobRunning + 1 })
          if j.ignore then
            serverJobTake (serverJobFree s3 h) cid
          else
            (some h, s3)
  termination_by s.jobs.length
  decreasing_by
    show (serverJobFree s3 h).jobs.length < s.jobs.length
    have hj3 : alookup h s3.jobs = some { j with worker := some cid } := by
      simp [s3, s2, s1, updateFn, updateJob, alookup_aupdate, _hj]
    have hlen : s3.jobs.length = s.jobs.length := by
      simp only [s3, s2, s1, updateFn, updateJob, aupdate_length]
    have := serverJobFree_jobs_length hj3
    omega

theorem serverJobTake_of_some (s : Server) (cid : Nat) :
    ∀ t s', serverJobTake s cid = (some t, s') →
      (alookup t s'.jobs).isSome ∧ s'.jobs.length ≤ s.jobs.length := by
  have key : ∀ n (s : Server) (cid : Nat) t s', s.jobs.length = n →
      serverJobTake s cid = (some t, s') →
      (alookup t s'.jobs).isSome ∧ s'.jobs.length ≤ s.jobs.length := by
    intro n
    induction n using Nat.strong_induction_on with
    | _ n ih =>
      intro s cid t s' hn h
      rw [serverJobTake] at h
      split at h
      · simp at h
      split at h
      · simp at h
      split at h
      · simp at h
      split at h
      · simp at h
      rename_i con hcon fp f hbusy p hd hfj j hj
      split at h
      · have hj3 : alookup hd (updateFn (updateJob (updateFn s j.fn (fun g =>
            let g1 := g.setPlist p (g.plist p).tail
            { g1 with jobCount := g1.jobCount - 1 })) hd
              (fun jj => { jj with worker := some cid })) j.fn
              (fun g => { g with jobRunning := g.jobRunning + 1 })).jobs =
            some { j with worker := some cid } := by
          simp [updateFn, updateJob, alookup_aupdate, hj]
        have hfree := serverJobFree_jobs_length hj3
        have hXlen : (updateFn (updateJob (updateFn s j.fn (fun g =>
            let g1 := g.setPlist p (g.plist p).tail
            { g1 with jobCount := g1.jobCount - 1 })) hd
              (fun jj => { jj with worker := some cid })) j.fn
              (fun g => { g with jobRunning := g.jobRunning + 1 })).jobs.length =
            s.jobs.length := by
          simp only [updateFn, updateJob, aupdate_length]
        obtain ⟨h1, h2⟩ := ih _ (by omega) _ cid t s' rfl h
        exact ⟨h1, by omega⟩
      · injection h with h1 h2
        injection h1 with h1
        subst h1
        subst h2
        constructor
        · simp [updateFn, updateJob, alookup_aupdate, hj]
        · simp [updateFn, updateJob, aupdate_length]
  intro t s' h
  exact key _ s cid t s' rfl h

/-- The scan of `gearman_server_job_peek` (server_job.c:284-308): walk the
whole `worker_list`; for each worker session whose function has
`job_count != 0`, scan the priorities and stop at the first function that
actually has a head job (unlike the take, the peek moves on to the next
worker session when every list of a busy function is empty). -/
def peekFirstJob (s : Server) : List (List Nat) → Option (Priority × Nat)
  | [] => none
  | n :: rest =>
    match alookup n s.functions with
    | none => peekFirstJob s rest
    | some f =>
      if f.jobCount ≠ 0 then
        match fnFirstJob f with
        | some ph => some ph
        | none => peekFirstJob s rest
      else peekFirstJob s rest

/-- `gearman_server_job_peek` (server_job.c:278-311): return the job the next
take would start, without removing it.  A head job carrying
`GEARMAN_SERVER_JOB_IGNORE` (its only client disconnected while it was
queued) has the flag cleared, is taken and freed, and the peek retries.  The
C passes the take's result straight to `gearman_server_job_free`; when the
take yields nothing that free dereferences a null pointer, which the model
leaves as a dead end (unreachable in coherent states). -/
def serverJobPeek (s : Server) (cid : Nat) : Option Nat × Server :=
  match alookup cid s.cons with
  | none => (none, s)
  | some con =>
    match peekFirstJob s con.workerFns with
    | none => (none, s)
    | some (_, h) =>
      match alookup h s.jobs with
      | none => (none, s)
      | some j =>
        if j.ignore then
          let s1 := updateJob s h (fun jj => { jj with ignore := false })
          match _hT : serverJobTake s1 cid with
          | (some t, s2) => serverJobPeek (serverJobFree s2 t) cid
          | (none, s2) => (none, s2)
        else (some h, s)
  termination_by s.jobs.length
  decreasing_by
    obtain ⟨hp, hle⟩ := serverJobTake_of_some s1 cid t s2 _hT
    obtain ⟨j2, hj2⟩ := Option.isSome_iff_exists.mp hp
    have hfree := serverJobFree_jobs_length hj2
    have hs1 : s1.jobs.length = s.jobs.length := by
      simp [s1, updateJob, aupdate_length]
    omega

/-- The persistent-queue adapter as `gearman_server_job_add` sees it: which
of `queue_add_fn`, `queue_flush_fn`, `queue_done_fn` are installed, and the
codes the installed ones return when called. -/
structure QueueCallbacks where
  hasAdd : Bool
  addRet : GRet
  hasFlush : Bool
  flushRet : GRet
  hasDone : Bool
  deriving DecidableEq, Repr

/-- An adapter invocation performed during a `gearman_server_job_add` call. -/
inductive QEvent
  | qadd
  | qflush
  | qdone
  deriving DecidableEq, Repr

/-- Result of `gearman_server_job_add`: the returned job (id), the code
written through `ret_ptr`, the new broker state, and the adapter calls
made. -/
structure AddResult where
  job : Option Nat
  ret : GRet
  state : Server
  events : List QEvent
  deriving Repr

/-- The `key` local of `gearman_server_job_add` at the point it is stored
into `server_job->unique_key` (server_job.c:56-123).  With
`unique_size == 0` neither branch assigns it, so the C reads an
uninitialized stack slot; the model passes that unspecified content in as
`uninitKey`. -/
def jobAddKey (uniq dataArg : List Nat) (uninitKey : Nat) : Nat :=
  if uniq.length = 0 then uninitKey
  else if uniq = [45] then
    (if dataArg.length = 0 then 0 else serverJobHash dataArg)
  else serverJobHash uniq

/-- The dedup lookup of `gearman_server_job_add` (server_job.c:66-92):
nothing for an empty unique; for `unique == "-"` with data, look up by the
workload bytes; otherwise look up by the unique C string. -/
def jobAddLookup (s : Server) (fname uniq dataArg : List Nat) : Option Nat :=
  if uniq.length = 0 then none
  else if uniq = [45] then
    (if dataArg.length = 0 then none
     else serverJobGetUnique s (serverJobHash dataArg) fname dataArg
       dataArg.length)
  else serverJobGetUnique s (serverJobHash uniq) fname uniq 0

/-- The function record `gearman_server_job_add` works on after
`gearman_server_function_get` (always present there; the default covers the
unreachable miss). -/
def fnOf (s : Server) (fname : List Nat) : SFn :=
  (alookup fname s.functions).getD newSFn

/-- The tail of `gearman_server_job_add` (server_job.c:166-181): enqueue the
fresh job via `gearman_server_job_queue`; on failure, best-effort
`queue_done` (when no submitting client and the callback is installed), free
the job and return the error. -/
def jobAddFinish (s : Server) (jid : Nat) (hasClient : Bool)
    (cb : QueueCallbacks) (ioRet : Nat → GRet) (evs : List QEvent) :
    AddResult :=
  let rs := serverJobQueue s jid ioRet
  if rs.1 = GRet.success then
    { job := some jid, ret := GRet.success, state := rs.2, events := evs }
  else
    let evs2 := evs ++ (if !hasClient && cb.hasDone then [QEvent.qdone] else [])
    { job := none, ret := rs.1, state := serverJobFree rs.2 jid,
      events := evs2 }

/-- The fresh `gearman_server_job_st` as filled in by server_job.c:103-123:
function pointer, priority, handle from the counter, unique stored through
`snprintf`, borrowed data, and the (possibly uninitialized) `unique_key`. -/
def freshJob (s0 : Server) (fname uniq dataArg : List Nat) (p : Priority)
    (key : Nat) : SJob :=
  { fn := fname, priority := p, uniqueKey := key, unique := storeUnique uniq,
    data := dataArg, handle := s0.jobHandleCount, worker := none,
    queuedFlag := false, ignore := false, numerator := 0, denominator := 0 }

/-- The broker state right after the fresh job is created and inserted into
both hash tables (server_job.c:103-131): `job_total` bumped, handle counter
advanced, job pushed on both bucket chains. -/
def freshState (s0 : Server) (fname uniq dataArg : List Nat) (p : Priority)
    (key : Nat) : Server :=
  { s0 with
    jobs := (s0.nextJobId, freshJob s0 fname uniq dataArg p key) :: s0.jobs,
    nextJobId := s0.nextJobId + 1,
    jobHandleCount := s0.jobHandleCount + 1,
    uniqueHash := s0.nextJobId :: s0.uniqueHash,
    jobHash := s0.nextJobId :: s0.jobHash,
    functions := aupdate fname
      (fun g => { g with jobTotal := g.jobTotal + 1 }) s0.functions }

/-- `gearman_server_job_add` (server_job.c:46-193).  Parameters beyond the C
signature: `hasClient` is `server_client != NULL`; `cb` describes the
installed adapter callbacks and their results; `ioRet` gives the results of
the packet enqueues inside `gearman_server_job_queue`; `uninitKey` is the
content of the uninitialized `key` local (read when `unique_size == 0`).
The client attach for a foreground submit (server_job.c:186-190) touches
only client bookkeeping outside the model. -/
def serverJobAdd (s : Server) (fname uniq dataArg : List Nat)
    (priority : Priority) (hasClient : Bool) (cb : QueueCallbacks)
    (ioRet : Nat → GRet) (uninitKey : Nat) : AddResult :=
  let s0 := serverFunctionGet s fname
  match jobAddLookup s0 fname uniq dataArg with
  | some jid =>
    { job := some jid, ret := GRet.jobExists, state := s0, events := [] }
  | none =>
    let f := fnOf s0 fname
    if f.maxQueueSize > 0 ∧ f.jobTotal ≥ f.maxQueueSize then
      { job := none, ret := GRet.jobQueueFull, state := s0, events := [] }
    else
      let jid := s0.nextJobId
      let s1 : Server :=
        freshState s0 fname uniq dataArg priority
          (jobAddKey uniq dataArg uninitKey)
      if s1.replay then
        jobAddFinish (updateJob s1 jid (fun j => { j with queuedFlag := true }))
          jid hasClient cb ioRet []
      else if !hasClient && cb.hasAdd then
        if cb.addRet ≠ GRet.success then
          { job := none, ret := cb.addRet, state := serverJobFree s1 jid,
            events := [QEvent.qadd] }
        else if cb.hasFlush ∧ cb.flushRet ≠ GRet.success then
          { job := none, ret := cb.flushRet, state := serverJobFree s1 jid,
            events := [QEvent.qadd, QEvent.qflush] }
        else
          jobAddFinish
            (updateJob s1 jid (fun j => { j with queuedFlag := true })) jid
            hasClient cb ioRet
            ([QEvent.qadd] ++ if cb.hasFlush then [QEvent.qflush] else [])
      else
        jobAddFinish s1 jid hasClient cb ioRet []

/-- A broker with no functions, jobs or connections, replay off. -/
def emptyServer : Server :=
  { replay := false, jobHandleCount := 0, nextJobId := 0, functions := [],
    jobs := [], uniqueHash := [], jobHash := [], cons := [] }

/-- No persistent-queue adapter installed. -/
def noCb : QueueCallbacks :=
  { hasAdd := false, addRet := GRet.success, hasFlush := false,
    flushRet := GRet.success, hasDone := false }

/-- Packet enqueues that always succeed. -/
def okIo : Nat → GRet := fun _ => GRet.success

theorem noopLoop_fst (ws : List Nat) (io : Nat → GRet)
    (hio : ∀ n, io n = GRet.success) :
    ∀ (s : Server) (idx : Nat), (noopLoop s ws io idx).1 = GRet.success := by
  induction ws with
  | nil => intro s idx; rfl
  | cons c rest ih =>
    intro s idx
    rw [noopLoop]
    cases hc : alookup c s.cons with
    | none => exact ih s idx
    | some con =>
      by_cases hskip : (!con.noopQueued && !con.sleeping) = true
      · simp only [hskip, if_true]
        exact ih s idx
      · simp [hskip, hio idx, ih]

theorem noopLoop_jobs (ws : List Nat) (io : Nat → GRet) :
    ∀ (s : Server) (idx : Nat), (noopLoop s ws io idx).2.jobs = s.jobs := by
  induction ws with
  | nil => intro s idx; rfl
  | cons c rest ih =>
    intro s idx
    rw [noopLoop]
    cases hc : alookup c s.cons with
    | none => exact ih s idx
    | some con =>
      by_cases hskip : (!con.noopQueued && !con.sleeping) = true
      · simp only [hskip, if_true]
        exact ih s idx
      · by_cases hr : io idx = GRet.success
        · simp [hskip, hr, ih, updateCon]
        · simp [hskip, hr]

theorem noopLoop_functions (ws : List Nat) (io : Nat → GRet) :
    ∀ (s : Server) (idx : Nat),
      (noopLoop s ws io idx).2.functions = s.functions := by
  induction ws with
  | nil => intro s idx; rfl
  | cons c rest ih =>
    intro s idx
    rw [noopLoop]
    cases hc : alookup c s.cons with
    | none => exact ih s idx
    | some con =>
      by_cases hskip : (!con.noopQueued && !con.sleeping) = true
      · simp only [hskip, if_true]
        exact ih s idx
      · by_cases hr : io idx = GRet.success
        · simp [hskip, hr, ih, updateCon]
        · simp [hskip, hr]

theorem noopLoop_hashes (ws : List Nat) (io : Nat → GRet) :
    ∀ (s : Server) (idx : Nat),
      (noopLoop s ws io idx).2.uniqueHash = s.uniqueHash ∧
      (noopLoop s ws io idx).2.jobHash = s.jobHash := by
  induction ws with
  | nil => intro s idx; exact ⟨rfl, rfl⟩
  | cons c rest ih =>
    intro s idx
    rw [noopLoop]
    cases hc : alookup c s.cons with
    | none => exact ih s idx
    | some con =>
      by_cases hskip : (!con.noopQueued && !con.sleeping) = true
      · simp only [hskip, if_true]
        exact ih s idx
      · by_cases hr : io idx = GRet.success
        · constructor
          · simp [hskip, hr, (ih _ _).1, updateCon]
          · simp [hskip, hr, (ih _ _).2, updateCon]
        · constructor <;> simp [hskip, hr]

theorem noopLoop_not_mem (ws : List Nat) (io : Nat → GRet) (c : Nat) :
    ∀ (s : Server) (idx : Nat), c ∉ ws →
      alookup c (noopLoop s ws io idx).2.cons = alookup c s.cons := by
  induction ws with
  | nil => intro s idx _; rfl
  | cons c' rest ih =>
    intro s idx h
    simp only [List.mem_cons] at h
    push_neg at h
    rw [noopLoop]
    cases hc : alookup c' s.cons with
    | none => exact ih s idx h.2
    | some con =>
      by_cases hskip : (!con.noopQueued && !con.sleeping) = true
      · simp only [hskip, if_true]
        exact ih s idx h.2
      · by_cases hr : io idx = GRet.success
        · simp only [hskip, Bool.false_eq_true, if_false, hr, if_true]
          rw [ih _ _ h.2]
          simp only [updateCon, alookup_aupdate]
          rw [if_neg (fun hh => h.1 hh.symm)]
        · simp [hskip, hr]

theorem noopLoop_mem (ws : List Nat) (io : Nat → GRet) (c : Nat)
    (hio : ∀ n, io n = GRet.success) :
    ∀ (s : Server) (idx : Nat) (con : SCon), ws.Nodup → c ∈ ws →
      alookup c s.cons = some con →
      ∃ con', alookup c (noopLoop s ws io idx).2.cons = some con' ∧
        con'.noopQueued = (con.noopQueued || con.sleeping) ∧
        con'.noops =
          con.noops + (if con.noopQueued || con.sleeping then 1 else 0) := by
  induction ws with
  | nil => intro s idx con _ hc; simp at hc
  | cons c' rest ih =>
    intro s idx con hnd hc hcon
    rw [List.nodup_cons] at hnd
    rw [noopLoop]
    cases hcc : alookup c' s.cons with
    | none =>
      have hne : c ≠ c' := fun h => by rw [h, hcc] at hcon; cases hcon
      have hcr : c ∈ rest := by
        rcases List.mem_cons.mp hc with h | h
        · exact absurd h hne
        · exact h
      exact ih s idx con hnd.2 hcr hcon
    | some con2 =>
      by_cases hskip : (!con2.noopQueued && !con2.sleeping) = true
      · simp only [hskip, if_true]
        by_cases hne : c = c'
        · subst hne
          rw [hcon] at hcc
          injection hcc with hcc
          subst hcc
          simp only [Bool.and_eq_true, Bool.not_eq_eq_eq_not,
            Bool.not_true] at hskip
          refine ⟨con, ?_, ?_, ?_⟩
          · rw [noopLoop_not_mem rest io c s idx hnd.1]
            exact hcon
          · rw [hskip.1, hskip.2]
            rfl
          · rw [hskip.1, hskip.2]
            simp
        · have hcr : c ∈ rest := by
            rcases List.mem_cons.mp hc with h | h
            · exact absurd h hne
            · exact h
          exact ih s idx con hnd.2 hcr hcon
      · have hproc : (con2.noopQueued || con2.sleeping) = true := by
          cases hnq : con2.noopQueued with
          | true => simp
          | false =>
            cases hsl : con2.sleeping with
            | true => simp
            | false => exact absurd (by rw [hnq, hsl]; rfl) hskip
        simp only [hskip, Bool.false_eq_true, if_false, hio idx, if_true]
        by_cases hne : c = c'
        · subst hne
          rw [hcon] at hcc
          injection hcc with hcc
          subst hcc
          refine ⟨{ con with noops := con.noops + 1, noopQueued := true },
            ?_, ?_, ?_⟩
          · rw [noopLoop_not_mem rest io c _ _ hnd.1]
            simp [updateCon, alookup_aupdate, hcon]
          · rw [hproc]
          · rw [hproc]
            simp
        · have hcr : c ∈ rest := by
            rcases List.mem_cons.mp hc with h | h
            · exact absurd h hne
            · exact h
          have hcon2 : alookup c (updateCon s c' fun cc =>
              { cc with noops := cc.noops + 1, noopQueued := true }).cons =
              some con := by
            simp only [updateCon, alookup_aupdate]
            rw [if_neg (fun hh => hne hh.symm)]
            exact hcon
          exact ih _ _ con hnd.2 hcr hcon2

theorem noopLoop_state (ws : List Nat) (io : Nat → GRet) :
    ∀ (s : Server) (idx : Nat), ∃ cs,
      (noopLoop s ws io idx).2 = { s with cons := cs } := by
  induction ws with
  | nil => intro s idx; exact ⟨s.cons, rfl⟩
  | cons c rest ih =>
    intro s idx
    rw [noopLoop]
    cases hc : alookup c s.cons with
    | none => exact ih s idx
    | some con =>
      by_cases hskip : (!con.noopQueued && !con.sleeping) = true
      · simp only [hskip, if_true]
        exact ih s idx
      · by_cases hr : io idx = GRet.success
        · simp only [hskip, Bool.false_eq_true, if_false, hr, if_true]
          obtain ⟨cs, hcs⟩ := ih (updateCon s c fun cc =>
            { cc with noops := cc.noops + 1, noopQueued := true }) (idx + 1)
          exact ⟨cs, hcs⟩
        · simp only [hskip, Bool.false_eq_true, if_false, hr, if_false]
          exact ⟨s.cons, rfl⟩

theorem queuedMid_jobs (s : Server) (i : Nat) (j : SJob) :
    (queuedMid s i j).jobs = aupdate i (fun jj =>
      { jj with worker := none, numerator := 0, denominator := 0 }) s.jobs := by
  cases hw : j.worker.isSome <;>
    simp [queuedMid, updateJob, updateFn, hw]

theorem queuedMid_functions (s : Server) (i : Nat) (j : SJob) :
    (queuedMid s i j).functions =
      (if j.worker.isSome then
        aupdate j.fn (fun f => { f with jobRunning := f.jobRunning - 1 })
          s.functions
      else s.functions) := by
  cases hw : j.worker.isSome <;>
    simp [queuedMid, updateJob, updateFn, hw]

theorem queuedMid_cons (s : Server) (i : Nat) (j : SJob) :
    (queuedMid s i j).cons = s.cons := by
  cases hw : j.worker.isSome <;>
    simp [queuedMid, updateJob, updateFn, hw]

theorem queuedMid_misc (s : Server) (i : Nat) (j : SJob) :
    (queuedMid s i j).uniqueHash = s.uniqueHash ∧
    (queuedMid s i j).jobHash = s.jobHash ∧
    (queuedMid s i j).replay = s.replay ∧
    (queuedMid s i j).nextJobId = s.nextJobId ∧
    (queuedMid s i j).jobHandleCount = s.jobHandleCount := by
  cases hw : j.worker.isSome <;>
    simp [queuedMid, updateJob, updateFn, hw]

/-- When every packet enqueue succeeds, `gearman_server_job_queue` on a live
job returns `GEARMAN_SUCCESS` and the final state is the mid state with the
NOOP loop's connection updates and the job appended to its priority list. -/
theorem serverJobQueue_success_eq (s : Server) (i : Nat) (io : Nat → GRet)
    (j : SJob) (hj : alookup i s.jobs = some j)
    (hio : ∀ n, io n = GRet.success) :
    serverJobQueue s i io = (GRet.success,
      updateFn (noopLoop (queuedMid s i j)
        (((alookup j.fn (queuedMid s i j).functions).map SFn.workerCons).getD
          []) io 0).2 j.fn (fun f => fnEnqueue f j.priority i)) := by
  simp only [serverJobQueue, hj]
  rw [noopLoop_fst _ io hio]
  simp

theorem fnEnqueue_jobRunning (f : SFn) (p : Priority) (i : Nat) :
    (fnEnqueue f p i).jobRunning = f.jobRunning := by cases p <;> rfl

theorem fnEnqueue_jobTotal (f : SFn) (p : Priority) (i : Nat) :
    (fnEnqueue f p i).jobTotal = f.jobTotal := by cases p <;> rfl

theorem fnEnqueue_jobCount (f : SFn) (p : Priority) (i : Nat) :
    (fnEnqueue f p i).jobCount = f.jobCount + 1 := by cases p <;> rfl

theorem fnEnqueue_maxQueueSize (f : SFn) (p : Priority) (i : Nat) :
    (fnEnqueue f p i).maxQueueSize = f.maxQueueSize := by cases p <;> rfl

theorem fnEnqueue_workerCons (f : SFn) (p : Priority) (i : Nat) :
    (fnEnqueue f p i).workerCons = f.workerCons := by cases p <;> rfl

theorem fnEnqueue_plist_self (f : SFn) (p : Priority) (i : Nat) :
    (fnEnqueue f p i).plist p = f.plist p ++ [i] := by cases p <;> rfl

theorem fnEnqueue_plist_ne (f : SFn) (p q : Priority) (i : Nat) (h : q ≠ p) :
    (fnEnqueue f p i).plist q = f.plist q := by
  cases p <;> cases q <;> first | rfl | exact absurd rfl h

theorem runningDec_plist (f : SFn) (q : Priority) :
    ({ f with jobRunning := f.jobRunning - 1 } : SFn).plist q = f.plist q := by
  cases q <;> rfl

/-- A normal-priority job of function `[102]`, fresh (no worker), for the
concrete scenarios. -/
def jobFx : SJob :=
  { fn := [102], priority := Priority.normal, uniqueKey := 3, unique := [117],
    data := [], handle := 0, worker := none, queuedFlag := false,
    ignore := false, numerator := 0, denominator := 0 }

def c1Fn : SFn := { newSFn with workerCons := [0, 1] }

/-- Awake worker connection with `noop_queued` already set. -/
def c1Con0 : SCon :=
  { sleeping := false, noopQueued := true, noops := 0, workerFns := [[102]] }

/-- Awake worker connection with `noop_queued` clear. -/
def c1Con1 : SCon :=
  { sleeping := false, noopQueued := false, noops := 0, workerFns := [[102]] }

/-- Broker for the C1 counterexample: one function `[102]` whose worker list
holds connections 0 and 1, and fresh job 5 for it. -/
def c1State : Server :=
  { emptyServer with
    functions := [([102], c1Fn)],
    jobs := [(5, jobFx)],
    cons := [(0, c1Con0), (1, c1Con1)] }

/-- C1 counterexample.  The claim asserts that enqueuing job 5 sends a NOOP
to every capable worker that is sleeping or has `noop_queued == false`
unless one is pending, and that a worker with `noop_queued` set never gets
another.  The code does the opposite on both counts: connection 0 (awake,
`noop_queued` set) receives a second NOOP, while connection 1 (awake,
`noop_queued` clear) receives none and its flag stays clear. -/
theorem server_job_queue_noop_claim_false :
    (serverJobQueue c1State 5 okIo).1 = GRet.success ∧
    (alookup 0 (serverJobQueue c1State 5 okIo).2.cons).map SCon.noops =
      some 1 ∧
    (alookup 1 (serverJobQueue c1State 5 okIo).2.cons).map SCon.noops =
      some 0 ∧
    (alookup 1 (serverJobQueue c1State 5 okIo).2.cons).map SCon.noopQueued =
      some false := by
  decide

/-- C1 (amended).  When `gearman_server_job_queue` enqueues a live job and
every packet enqueue succeeds, each connection on the function's worker list
is handled as follows: if it is sleeping or already has `noop_queued` set, a
NOOP packet is enqueued on it and `noop_queued` is set (so a worker whose
`noop_queued` flag is already set does receive an additional NOOP); a
connection that is neither sleeping nor flagged is skipped and keeps
`noop_queued == false`. -/
theorem server_job_queue_noop_condition
    (s : Server) (i c : Nat) (io : Nat → GRet) (j : SJob) (f : SFn)
    (con : SCon) (hj : alookup i s.jobs = some j)
    (hf : alookup j.fn s.functions = some f) (hnd : f.workerCons.Nodup)
    (hc : c ∈ f.workerCons) (hcon : alookup c s.cons = some con)
    (hio : ∀ n, io n = GRet.success) :
    (serverJobQueue s i io).1 = GRet.success ∧
    ∃ con', alookup c (serverJobQueue s i io).2.cons = some con' ∧
      con'.noopQueued = (con.noopQueued || con.sleeping) ∧
      con'.noops =
        con.noops + (if con.noopQueued || con.sleeping then 1 else 0) := by
  rw [serverJobQueue_success_eq s i io j hj hio]
  refine ⟨rfl, ?_⟩
  have hwl : ((alookup j.fn (queuedMid s i j).functions).map
      SFn.workerCons).getD [] = f.workerCons := by
    rw [queuedMid_functions]
    cases hw : j.worker.isSome
    · simp [hf]
    · simp [alookup_aupdate, hf]
  have hcon2 : alookup c (queuedMid s i j).cons = some con := by
    rw [queuedMid_cons]; exact hcon
  obtain ⟨con', h1, h2, h3⟩ :=
    noopLoop_mem f.workerCons io c hio (queuedMid s i j) 0 con hnd hc hcon2
  refine ⟨con', ?_, h2, h3⟩
  show alookup c (updateFn (noopLoop (queuedMid s i j)
    (((alookup j.fn (queuedMid s i j).functions).map SFn.workerCons).getD [])
    io 0).2 j.fn (fun f => fnEnqueue f j.priority i)).cons = some con'
  rw [hwl]
  simpa [updateFn] using h1

/-- Witness for the amended C1: at the counterexample state, connection 0
(awake, `noop_queued` set) ends with a second NOOP and the flag still set. -/
theorem server_job_queue_noop_condition_witness :
    (serverJobQueue c1State 5 okIo).1 = GRet.success ∧
    ∃ con', alookup 0 (serverJobQueue c1State 5 okIo).2.cons = some con' ∧
      con'.noopQueued = (c1Con0.noopQueued || c1Con0.sleeping) ∧
      con'.noops = c1Con0.noops +
        (if c1Con0.noopQueued || c1Con0.sleeping then 1 else 0) :=
  server_job_queue_noop_condition c1State 5 0 okIo jobFx c1Fn c1Con0
    (by decide) (by decide) (by decide) (by decide) (by decide)
    (fun _ => rfl)

/-- A running job of function `[102]` held by worker connection 9. -/
def jobFx2 : SJob :=
  { jobFx with
    uniqueKey := 2, unique := [118], handle := 1, worker := some 9,
    numerator := 3, denominator := 4 }

def c2Fn : SFn :=
  { newSFn with
    jobCount := 1, jobTotal := 2, jobRunning := 1, listNorm := [1] }

/-- Broker for the C2 counterexample: function `[102]` with queued job 1 on
its NORMAL list and running job 2 assigned to worker connection 9. -/
def c2State : Server :=
  { emptyServer with
    functions := [([102], c2Fn)],
    jobs := [(1, jobFx), (2, jobFx2)] }

/-- C2 counterexample.  Re-queuing running job 2 while job 1 already waits
on the NORMAL list puts job 2 at the TAIL (`[1, 2]`), not at the head
(`[2, 1]`) as the claim states: `gearman_server_job_queue` appends through
the `job_end` tail pointer. -/
theorem server_job_requeue_head_claim_false :
    (serverJobQueue c2State 2 okIo).1 = GRet.success ∧
    (alookup [102] (serverJobQueue c2State 2 okIo).2.functions).map
      SFn.listNorm = some [1, 2] ∧
    ((alookup [102] (serverJobQueue c2State 2 okIo).2.functions).map
      SFn.listNorm = some [2, 1] → False) := by
  decide

/-- C2 (amended).  Re-queuing a job that has an assigned worker returns it
to the TAIL of its original priority's list on its function, clears the
job's worker pointer, and decrements the function's `job_running` count
(and increments `job_count`). -/
theorem server_job_requeue_tail
    (s : Server) (i w : Nat) (io : Nat → GRet) (j : SJob) (f : SFn)
    (hj : alookup i s.jobs = some j) (hw : j.worker = some w)
    (hf : alookup j.fn s.functions = some f) (_hrun : 0 < f.jobRunning)
    (hio : ∀ n, io n = GRet.success) :
    (serverJobQueue s i io).1 = GRet.success ∧
    (∃ j', alookup i (serverJobQueue s i io).2.jobs = some j' ∧
      j'.worker = none) ∧
    (∃ f', alookup j.fn (serverJobQueue s i io).2.functions = some f' ∧
      f'.jobRunning = f.jobRunning - 1 ∧
      f'.plist j.priority = f.plist j.priority ++ [i] ∧
      f'.jobCount = f.jobCount + 1) := by
  rw [serverJobQueue_success_eq s i io j hj hio]
  obtain ⟨cs, hcs⟩ := noopLoop_state
    (((alookup j.fn (queuedMid s i j).functions).map SFn.workerCons).getD [])
    io (queuedMid s i j) 0
  have hwsome : j.worker.isSome = true := by rw [hw]; rfl
  refine ⟨rfl, ?_, ?_⟩
  · refine ⟨{ j with worker := none, numerator := 0, denominator := 0 },
      ?_, rfl⟩
    simp only [updateFn]
    rw [hcs]
    show alookup i (queuedMid s i j).jobs = _
    rw [queuedMid_jobs, alookup_aupdate]
    simp [hj]
  · refine ⟨fnEnqueue { f with jobRunning := f.jobRunning - 1 } j.priority i,
      ?_, ?_, ?_, ?_⟩
    · simp only [updateFn]
      rw [hcs]
      show alookup j.fn (aupdate j.fn (fun g => fnEnqueue g j.priority i)
        (queuedMid s i j).functions) = _
      rw [alookup_aupdate, if_pos rfl, queuedMid_functions, hwsome,
        if_pos rfl, alookup_aupdate, if_pos rfl, hf]
      rfl
    · rw [fnEnqueue_jobRunning]
    · rw [fnEnqueue_plist_self, runningDec_plist]
    · rw [fnEnqueue_jobCount]

/-- Witness for the amended C2 at the counterexample state. -/
theorem server_job_requeue_tail_witness :
    (serverJobQueue c2State 2 okIo).1 = GRet.success ∧
    (∃ j', alookup 2 (serverJobQueue c2State 2 okIo).2.jobs = some j' ∧
      j'.worker = none) ∧
    (∃ f', alookup jobFx2.fn (serverJobQueue c2State 2 okIo).2.functions =
        some f' ∧
      f'.jobRunning = c2Fn.jobRunning - 1 ∧
      f'.plist jobFx2.priority = c2Fn.plist jobFx2.priority ++ [2] ∧
      f'.jobCount = c2Fn.jobCount + 1) :=
  server_job_requeue_tail c2State 2 9 okIo jobFx2 c2Fn (by decide) (by decide)
    (by decide) (by decide) (fun _ => rfl)

theorem serverJobQueue_jobs_of_success (s : Server) (i : Nat)
    (io : Nat → GRet) (j : SJob) (hj : alookup i s.jobs = some j)
    (hsucc : (serverJobQueue s i io).1 = GRet.success) :
    (serverJobQueue s i io).2.jobs = aupdate i (fun jj =>
      { jj with worker := none, numerator := 0, denominator := 0 })
      s.jobs := by
  simp only [serverJobQueue, hj] at hsucc ⊢
  by_cases hnl : (noopLoop (queuedMid s i j)
      (((alookup j.fn (queuedMid s i j).functions).map SFn.workerCons).getD
        []) io 0).1 = GRet.success
  · rw [if_pos hnl]
    obtain ⟨cs, hcs⟩ := noopLoop_state
      (((alookup j.fn (queuedMid s i j).functions).map SFn.workerCons).getD
        []) io (queuedMid s i j) 0
    simp only [updateFn]
    rw [hcs]
    exact queuedMid_jobs s i j
  · rw [if_neg hnl] at hsucc
    exact absurd hsucc hnl

theorem serverJobQueue_functions_of_success (s : Server) (i : Nat)
    (io : Nat → GRet) (j : SJob) (hj : alookup i s.jobs = some j)
    (hsucc : (serverJobQueue s i io).1 = GRet.success) :
    (serverJobQueue s i io).2.functions =
      aupdate j.fn (fun g => fnEnqueue g j.priority i)
        (if j.worker.isSome then
          aupdate j.fn (fun f => { f with jobRunning := f.jobRunning - 1 })
            s.functions
        else s.functions) := by
  simp only [serverJobQueue, hj] at hsucc ⊢
  by_cases hnl : (noopLoop (queuedMid s i j)
      (((alookup j.fn (queuedMid s i j).functions).map SFn.workerCons).getD
        []) io 0).1 = GRet.success
  · rw [if_pos hnl]
    obtain ⟨cs, hcs⟩ := noopLoop_state
      (((alookup j.fn (queuedMid s i j).functions).map SFn.workerCons).getD
        []) io (queuedMid s i j) 0
    simp only [updateFn]
    rw [hcs]
    show aupdate j.fn _ (queuedMid s i j).functions = _
    rw [queuedMid_functions]
  · rw [if_neg hnl] at hsucc
    exact absurd hsucc hnl

theorem serverJobQueue_hashes (s : Server) (i : Nat) (io : Nat → GRet) :
    (serverJobQueue s i io).2.uniqueHash = s.uniqueHash ∧
    (serverJobQueue s i io).2.jobHash = s.jobHash ∧
    (serverJobQueue s i io).2.replay = s.replay ∧
    (serverJobQueue s i io).2.nextJobId = s.nextJobId ∧
    (serverJobQueue s i io).2.jobHandleCount = s.jobHandleCount := by
  cases hj : alookup i s.jobs with
  | none => simp [serverJobQueue, hj]
  | some j =>
    simp only [serverJobQueue, hj]
    obtain ⟨cs, hcs⟩ := noopLoop_state
      (((alookup j.fn (queuedMid s i j).functions).map SFn.workerCons).getD
        []) io (queuedMid s i j) 0
    obtain ⟨m1, m2, m3, m4, m5⟩ := queuedMid_misc s i j
    by_cases hnl : (noopLoop (queuedMid s i j)
        (((alookup j.fn (queuedMid s i j).functions).map SFn.workerCons).getD
          []) io 0).1 = GRet.success
    · rw [if_pos hnl]
      simp only [updateFn]
      rw [hcs]
      exact ⟨m1, m2, m3, m4, m5⟩
    · rw [if_neg hnl]
      rw [hcs]
      exact ⟨m1, m2, m3, m4, m5⟩

theorem serverJobQueue_jobs_of_failure (s : Server) (i : Nat)
    (io : Nat → GRet) (j : SJob) (hj : alookup i s.jobs = some j)
    (hfail : (serverJobQueue s i io).1 ≠ GRet.success) :
    (serverJobQueue s i io).2.jobs = aupdate i (fun jj =>
      { jj with worker := none, numerator := 0, denominator := 0 })
      s.jobs ∧
    (serverJobQueue s i io).2.functions =
      (if j.worker.isSome then
        aupdate j.fn (fun f => { f with jobRunning := f.jobRunning - 1 })
          s.functions
      else s.functions) := by
  simp only [serverJobQueue, hj] at hfail ⊢
  by_cases hnl : (noopLoop (queuedMid s i j)
      (((alookup j.fn (queuedMid s i j).functions).map SFn.workerCons).getD
        []) io 0).1 = GRet.success
  · rw [if_pos hnl] at hfail
    exact absurd rfl hfail
  · rw [if_neg hnl]
    obtain ⟨cs, hcs⟩ := noopLoop_state
      (((alookup j.fn (queuedMid s i j).functions).map SFn.workerCons).getD
        []) io (queuedMid s i j) 0
    rw [hcs]
    exact ⟨queuedMid_jobs s i j, queuedMid_functions s i j⟩

theorem noopLoop_fst_cases (ws : List Nat) (io : Nat → GRet) :
    ∀ (s : Server) (idx : Nat), (noopLoop s ws io idx).1 = GRet.success ∨
      ∃ n, (noopLoop s ws io idx).1 = io n := by
  induction ws with
  | nil => intro s idx; exact Or.inl rfl
  | cons c rest ih =>
    intro s idx
    rw [noopLoop]
    cases hc : alookup c s.cons with
    | none => exact ih s idx
    | some con =>
      by_cases hskip : (!con.noopQueued && !con.sleeping) = true
      · simp only [hskip, if_true]
        exact ih s idx
      · by_cases hr : io idx = GRet.success
        · simp only [hskip, Bool.false_eq_true, if_false, hr, if_true]
          exact ih _ _
        · simp only [hskip, Bool.false_eq_true, if_false, hr, if_false]
          exact Or.inr ⟨idx, rfl⟩

theorem serverJobQueue_fst_cases (s : Server) (i : Nat) (io : Nat → GRet) :
    (serverJobQueue s i io).1 = GRet.success ∨
      ∃ n, (serverJobQueue s i io).1 = io n := by
  cases hj : alookup i s.jobs with
  | none => simp [serverJobQueue, hj]
  | some j =>
    simp only [serverJobQueue, hj]
    by_cases hnl : (noopLoop (queuedMid s i j)
        (((alookup j.fn (queuedMid s i j).functions).map SFn.workerCons).getD
          []) io 0).1 = GRet.success
    · rw [if_pos hnl]
      exact Or.inl rfl
    · rw [if_neg hnl]
      rcases noopLoop_fst_cases
        (((alookup j.fn (queuedMid s i j).functions).map SFn.workerCons).getD
          []) io (queuedMid s i j) 0 with h | h
      · exact absurd h hnl
      · exact Or.inr h

theorem jobAddFinish_ret_cases (S : Server) (jid : Nat) (hasClient : Bool)
    (cb : QueueCallbacks) (io : Nat → GRet) (evs : List QEvent) :
    (jobAddFinish S jid hasClient cb io evs).ret = GRet.success ∨
      ∃ n, (jobAddFinish S jid hasClient cb io evs).ret = io n := by
  rw [jobAddFinish]
  by_cases hq : (serverJobQueue S jid io).1 = GRet.success
  · rw [if_pos hq]
    exact Or.inl rfl
  · rw [if_neg hq]
    rcases serverJobQueue_fst_cases S jid io with h | h
    · exact absurd h hq
    · exact Or.inr h

theorem jobAddFinish_of_some (S : Server) (jid : Nat) (hasClient : Bool)
    (cb : QueueCallbacks) (io : Nat → GRet) (evs : List QEvent) (j : SJob)
    (t : Nat) (hj : alookup jid S.jobs = some j)
    (h : (jobAddFinish S jid hasClient cb io evs).job = some t) :
    t = jid ∧
    (jobAddFinish S jid hasClient cb io evs).ret = GRet.success ∧
    (jobAddFinish S jid hasClient cb io evs).events = evs ∧
    (jobAddFinish S jid hasClient cb io evs).state.jobs =
      aupdate jid (fun jj =>
        { jj with worker := none, numerator := 0, denominator := 0 })
        S.jobs ∧
    (jobAddFinish S jid hasClient cb io evs).state.uniqueHash =
      S.uniqueHash ∧
    (jobAddFinish S jid hasClient cb io evs).state.jobHash = S.jobHash := by
  rw [jobAddFinish] at h ⊢
  by_cases hq : (serverJobQueue S jid io).1 = GRet.success
  · rw [if_pos hq] at h ⊢
    injection h with h
    obtain ⟨h1, h2, _, _, _⟩ := serverJobQueue_hashes S jid io
    exact ⟨h.symm, rfl, rfl, serverJobQueue_jobs_of_success S jid io j hj hq,
      h1, h2⟩
  · rw [if_neg hq] at h
    exact absurd h (by simp)

theorem jobAddFinish_fresh (S : Server) (jid : Nat) (hasClient : Bool)
    (cb : QueueCallbacks) (io : Nat → GRet) (evs : List QEvent) (t : Nat)
    (hj : (alookup jid S.jobs).isSome = true)
    (h : (jobAddFinish S jid hasClient cb io evs).job = some t) :
    t = jid ∧
    (alookup jid (jobAddFinish S jid hasClient cb io evs).state.jobs).map
        SJob.uniqueKey = (alookup jid S.jobs).map SJob.uniqueKey := by
  obtain ⟨j, hjv⟩ := Option.isSome_iff_exists.mp hj
  obtain ⟨ht, _, _, hjobs, _, _⟩ :=
    jobAddFinish_of_some S jid hasClient cb io evs j t hjv h
  refine ⟨ht, ?_⟩
  rw [hjobs, alookup_aupdate, if_pos rfl, hjv]
  rfl

/-- C10.  On the `unique_size == 0` creating path of
`gearman_server_job_add`, the `key` local is never assigned before being
stored: whatever unspecified content `g` the uninitialized stack slot holds
becomes the created job's `unique_key` verbatim, and `g mod
GEARMAN_JOB_HASH_SIZE` selects its unique-hash bucket.  The embedding makes
the uninitialized read explicit as the oracle parameter `g`; the stored key
tracks `g` for every `g`, i.e. the outcome depends on an indeterminate
value, which is the undefined behavior the claim describes. -/
theorem job_add_uninit_unique_key
    (s : Server) (fname dataArg : List Nat) (p : Priority) (hasClient : Bool)
    (cb : QueueCallbacks) (io : Nat → GRet) (g jid : Nat)
    (h : (serverJobAdd s fname [] dataArg p hasClient cb io g).job =
      some jid) :
    ∃ j, alookup jid
        (serverJobAdd s fname [] dataArg p hasClient cb io g).state.jobs =
        some j ∧ j.uniqueKey = g ∧
      j.uniqueKey % GEARMAN_JOB_HASH_SIZE = g % GEARMAN_JOB_HASH_SIZE := by
  have hlk : jobAddLookup (serverFunctionGet s fname) fname [] dataArg =
      none := by
    simp [jobAddLookup]
  have key : (alookup jid
      (serverJobAdd s fname [] dataArg p hasClient cb io g).state.jobs).map
      SJob.uniqueKey = some g := by
    simp only [serverJobAdd, hlk] at h ⊢
    split at h
    · simp at h
    rename_i hfull
    rw [if_neg hfull]
    split at h
    · rename_i hrep
      rw [if_pos hrep]
      obtain ⟨ht, hmap⟩ := jobAddFinish_fresh _ _ _ _ _ _ _
        (by simp [updateJob, alookup_aupdate, alookup, freshState, freshJob]) h
      subst ht
      refine hmap.trans ?_
      simp [updateJob, alookup_aupdate, alookup, jobAddKey, freshState,
        freshJob]
    · rename_i hrep
      rw [if_neg hrep]
      split at h
      · rename_i hcb
        rw [if_pos hcb]
        split at h
        · simp at h
        · rename_i hadd
          rw [if_neg hadd]
          split at h
          · simp at h
          · rename_i hflush
            rw [if_neg hflush]
            obtain ⟨ht, hmap⟩ := jobAddFinish_fresh _ _ _ _ _ _ _
              (by simp [updateJob, alookup_aupdate, alookup, freshState, freshJob]) h
            subst ht
            refine hmap.trans ?_
            simp [updateJob, alookup_aupdate, alookup, jobAddKey, freshState,
              freshJob]
      · rename_i hcb
        rw [if_neg hcb]
        obtain ⟨ht, hmap⟩ := jobAddFinish_fresh _ _ _ _ _ _ _
          (by simp [alookup, freshState, freshJob]) h
        subst ht
        refine hmap.trans ?_
        simp [alookup, jobAddKey, freshState, freshJob]
  obtain ⟨j, hj, hkey⟩ := Option.map_eq_some'.mp key
  exact ⟨j, hj, hkey, by rw [hkey]⟩

/-- Witness for C10: submitting with an empty unique from the empty broker
(stack garbage 7) stores unique_key 7. -/
theorem job_add_uninit_unique_key_witness :
    ∃ j, alookup 0 (serverJobAdd emptyServer [102] [] [65] Priority.normal
        false noCb okIo 7).state.jobs = some j ∧ j.uniqueKey = 7 ∧
      j.uniqueKey % GEARMAN_JOB_HASH_SIZE = 7 % GEARMAN_JOB_HASH_SIZE :=
  job_add_uninit_unique_key emptyServer [102] [65] Priority.normal false noCb
    okIo 7 0 (by decide)

/-- C6.  `gearman_server_job_add` returns `GEARMAN_JOB_QUEUE_FULL` (with a
NULL job) exactly when the dedup lookup misses and the function's
`max_queue_size` is positive with `job_total` at or above it; in particular
a function with `max_queue_size == 0` (the default `gearman_server_function_create`
installs) never rejects a submission as full.  The installed adapter
callbacks and the packet enqueues are assumed not to return
`GEARMAN_JOB_QUEUE_FULL` themselves (those codes are merely passed
through). -/
theorem job_add_queue_full_iff
    (s : Server) (fname uniq dataArg : List Nat) (p : Priority)
    (hasClient : Bool) (cb : QueueCallbacks) (io : Nat → GRet) (g : Nat)
    (hcb1 : cb.addRet ≠ GRet.jobQueueFull)
    (hcb2 : cb.flushRet ≠ GRet.jobQueueFull)
    (hio : ∀ n, io n ≠ GRet.jobQueueFull) :
    ((serverJobAdd s fname uniq dataArg p hasClient cb io g).ret =
        GRet.jobQueueFull ↔
      (jobAddLookup (serverFunctionGet s fname) fname uniq dataArg = none ∧
        0 < (fnOf (serverFunctionGet s fname) fname).maxQueueSize ∧
        (fnOf (serverFunctionGet s fname) fname).maxQueueSize ≤
          (fnOf (serverFunctionGet s fname) fname).jobTotal)) ∧
    ((serverJobAdd s fname uniq dataArg p hasClient cb io g).ret =
        GRet.jobQueueFull →
      (serverJobAdd s fname uniq dataArg p hasClient cb io g).job =
        none) := by
  have hfin : ∀ (S : Server) (jid' : Nat) (evs : List QEvent),
      (jobAddFinish S jid' hasClient cb io evs).ret ≠ GRet.jobQueueFull := by
    intro S jid' evs
    rcases jobAddFinish_ret_cases S jid' hasClient cb io evs with hh | ⟨n, hh⟩
    · rw [hh]; simp
    · rw [hh]; exact hio n
  cases hlk : jobAddLookup (serverFunctionGet s fname) fname uniq dataArg with
  | some jid => simp [serverJobAdd, hlk]
  | none =>
    by_cases hfull :
        (fnOf (serverFunctionGet s fname) fname).maxQueueSize > 0 ∧
        (fnOf (serverFunctionGet s fname) fname).jobTotal ≥
          (fnOf (serverFunctionGet s fname) fname).maxQueueSize
    · simp only [serverJobAdd, hlk]
      rw [if_pos hfull]
      exact ⟨⟨fun _ => ⟨by simp [hlk], hfull.1, hfull.2⟩, fun _ => rfl⟩,
        fun _ => rfl⟩
    · simp only [serverJobAdd, hlk]
      rw [if_neg hfull]
      split
      · exact ⟨⟨fun hr => absurd hr (hfin _ _ _),
          fun hr => absurd ⟨hr.2.1, hr.2.2⟩ hfull⟩,
          fun hr => absurd hr (hfin _ _ _)⟩
      · split
        · split
          · exact ⟨⟨fun hr => absurd hr hcb1,
              fun hr => absurd ⟨hr.2.1, hr.2.2⟩ hfull⟩,
              fun hr => absurd hr hcb1⟩
          · split
            · exact ⟨⟨fun hr => absurd hr hcb2,
                fun hr => absurd ⟨hr.2.1, hr.2.2⟩ hfull⟩,
                fun hr => absurd hr hcb2⟩
            · exact ⟨⟨fun hr => absurd hr (hfin _ _ _),
                fun hr => absurd ⟨hr.2.1, hr.2.2⟩ hfull⟩,
                fun hr => absurd hr (hfin _ _ _)⟩
        · exact ⟨⟨fun hr => absurd hr (hfin _ _ _),
            fun hr => absurd ⟨hr.2.1, hr.2.2⟩ hfull⟩,
            fun hr => absurd hr (hfin _ _ _)⟩

/-- Broker with function `[102]` at `max_queue_size 1` already holding one
job in total. -/
def c6State : Server :=
  { emptyServer with
    functions := [([102], { newSFn with maxQueueSize := 1, jobTotal := 1 })] }

/-- Witness for C6 at a full function (`max_queue_size = 1`, `job_total =
1`). -/
theorem job_add_queue_full_iff_witness :
    ((serverJobAdd c6State [102] [117] [] Priority.normal false noCb okIo
        0).ret = GRet.jobQueueFull ↔
      (jobAddLookup (serverFunctionGet c6State [102]) [102] [117] [] =
          none ∧
        0 < (fnOf (serverFunctionGet c6State [102]) [102]).maxQueueSize ∧
        (fnOf (serverFunctionGet c6State [102]) [102]).maxQueueSize ≤
          (fnOf (serverFunctionGet c6State [102]) [102]).jobTotal)) ∧
    ((serverJobAdd c6State [102] [117] [] Priority.normal false noCb okIo
        0).ret = GRet.jobQueueFull →
      (serverJobAdd c6State [102] [117] [] Priority.normal false noCb okIo
        0).job = none) :=
  job_add_queue_full_iff c6State [102] [117] [] Priority.normal false noCb
    okIo 0 (by decide) (by decide) (fun _ => by simp [okIo])

theorem serverFunctionGet_replay (s : Server) (fname : List Nat) :
    (serverFunctionGet s fname).replay = s.replay := by
  rw [serverFunctionGet]
  cases alookup fname s.functions <;> rfl

theorem aupdate_total_cancel (n : List Nat) (l : List (List Nat × SFn)) :
    aupdate n (fun f => { f with jobTotal := f.jobTotal - 1 })
      (aupdate n (fun g => { g with jobTotal := g.jobTotal + 1 }) l) = l := by
  rw [aupdate_aupdate]
  have hg : ∀ x : SFn,
      ({ { x with jobTotal := x.jobTotal + 1 } with
        jobTotal := ({ x with jobTotal := x.jobTotal + 1 } : SFn).jobTotal - 1 }
        : SFn) = x := by
    intro x
    simp
  rw [aupdate_congr n _ (fun x => x) l hg]
  exact aupdate_id n l

theorem serverJobFree_eq_of_no_worker (T : Server) (jid : Nat) (nj : SJob)
    (hj : alookup jid T.jobs = some nj) (hw : nj.worker = none) :
    serverJobFree T jid =
      { T with
        functions := aupdate nj.fn
          (fun f => { f with jobTotal := f.jobTotal - 1 }) T.functions,
        uniqueHash := T.uniqueHash.erase jid,
        jobHash := T.jobHash.erase jid,
        jobs := aerase jid T.jobs } := by
  simp [serverJobFree, hj, hw, updateFn]

theorem jobAddFinish_of_fail (S : Server) (jid : Nat) (hc : Bool)
    (cb : QueueCallbacks) (io : Nat → GRet) (evs : List QEvent)
    (h : (jobAddFinish S jid hc cb io evs).ret ≠ GRet.success) :
    (jobAddFinish S jid hc cb io evs).job = none ∧
    (serverJobQueue S jid io).1 ≠ GRet.success ∧
    (jobAddFinish S jid hc cb io evs).state =
      serverJobFree (serverJobQueue S jid io).2 jid ∧
    (jobAddFinish S jid hc cb io evs).events =
      evs ++ (if !hc && cb.hasDone then [QEvent.qdone] else []) := by
  rw [jobAddFinish] at h ⊢
  by_cases hq : (serverJobQueue S jid io).1 = GRet.success
  · rw [if_pos hq] at h
    exact absurd rfl h
  · rw [if_neg hq]
    exact ⟨rfl, hq, rfl, rfl⟩

theorem serverJobFree_freshState (s0 : Server) (fname uniq dataArg : List Nat)
    (p : Priority) (key : Nat) :
    serverJobFree (freshState s0 fname uniq dataArg p key) s0.nextJobId =
      { s0 with nextJobId := s0.nextJobId + 1,
                jobHandleCount := s0.jobHandleCount + 1 } := by
  rw [serverJobFree_eq_of_no_worker _ _
    (freshJob s0 fname uniq dataArg p key)
    (by simp [freshState, alookup]) rfl]
  simp [freshState, freshJob, aupdate_total_cancel, aerase]

theorem queue_fail_rollback (s0 : Server) (fname uniq dataArg : List Nat)
    (p : Priority) (key : Nat) (io : Nat → GRet)
    (hq : (serverJobQueue (updateJob (freshState s0 fname uniq dataArg p key)
      s0.nextJobId (fun j => { j with queuedFlag := true }))
      s0.nextJobId io).1 ≠ GRet.success) :
    (serverJobFree (serverJobQueue (updateJob
        (freshState s0 fname uniq dataArg p key) s0.nextJobId
        (fun j => { j with queuedFlag := true })) s0.nextJobId io).2
        s0.nextJobId).jobs = s0.jobs ∧
    (serverJobFree (serverJobQueue (updateJob
        (freshState s0 fname uniq dataArg p key) s0.nextJobId
        (fun j => { j with queuedFlag := true })) s0.nextJobId io).2
        s0.nextJobId).uniqueHash = s0.uniqueHash ∧
    (serverJobFree (serverJobQueue (updateJob
        (freshState s0 fname uniq dataArg p key) s0.nextJobId
        (fun j => { j with queuedFlag := true })) s0.nextJobId io).2
        s0.nextJobId).jobHash = s0.jobHash ∧
    (serverJobFree (serverJobQueue (updateJob
        (freshState s0 fname uniq dataArg p key) s0.nextJobId
        (fun j => { j with queuedFlag := true })) s0.nextJobId io).2
        s0.nextJobId).functions = s0.functions := by
  have hj2 : alookup s0.nextJobId (updateJob
      (freshState s0 fname uniq dataArg p key) s0.nextJobId
      (fun j => { j with queuedFlag := true })).jobs =
      some { freshJob s0 fname uniq dataArg p key with queuedFlag := true } := by
    simp [updateJob, alookup_aupdate, freshState, alookup]
  obtain ⟨hjobs, hfns⟩ := serverJobQueue_jobs_of_failure _ _ io _ hj2 hq
  obtain ⟨huh, hjh, _, _, _⟩ := serverJobQueue_hashes (updateJob
    (freshState s0 fname uniq dataArg p key) s0.nextJobId
    (fun j => { j with queuedFlag := true })) s0.nextJobId io
  have hjT : alookup s0.nextJobId (serverJobQueue (updateJob
      (freshState s0 fname uniq dataArg p key) s0.nextJobId
      (fun j => { j with queuedFlag := true })) s0.nextJobId io).2.jobs =
      some { freshJob s0 fname uniq dataArg p key with
             queuedFlag := true, worker := none, numerator := 0,
             denominator := 0 } := by
    rw [hjobs, alookup_aupdate, if_pos rfl, hj2]
    rfl
  rw [serverJobFree_eq_of_no_worker _ _ _ hjT rfl]
  refine ⟨?_, ?_, ?_, ?_⟩
  · show aerase s0.nextJobId _ = s0.jobs
    rw [hjobs]
    simp [updateJob, freshState, aupdate, aerase]
  · show List.erase _ s0.nextJobId = s0.uniqueHash
    rw [huh]
    simp [updateJob, freshState]
  · show List.erase _ s0.nextJobId = s0.jobHash
    rw [hjh]
    simp [updateJob, freshState]
  · show aupdate _ _ _ = s0.functions
    rw [hfns]
    simp only [updateJob, freshState]
    show aupdate (freshJob s0 fname uniq dataArg p key).fn _ _ = _
    simp [freshJob, aupdate_total_cancel]

/-- C5.  Atomicity of failed submission on the background/replay creation
path (`server_client == NULL`, adapter installed, dedup miss, queue not
full, not in replay): whenever the add fails, the returned job is NULL and
the broker state is rolled back — the job is gone from the job map and from
both hash tables and the function list (hence `job_total`) is restored.
Moreover the error code and the adapter calls are: the `queue_add` error
with just `[add]` when `add` fails; the `queue_flush` error with
`[add, flush]` when `flush` fails; and when the enqueue itself fails, the
calls are `add`, optional `flush`, and a best-effort `queue_done` exactly
when that callback is installed. -/
theorem job_add_adapter_rollback
    (s : Server) (fname uniq dataArg : List Nat) (p : Priority)
    (cb : QueueCallbacks) (io : Nat → GRet) (g : Nat)
    (hreplay : s.replay = false) (hAdd : cb.hasAdd = true)
    (hmiss : jobAddLookup (serverFunctionGet s fname) fname uniq dataArg =
      none)
    (hfull : ¬((fnOf (serverFunctionGet s fname) fname).maxQueueSize > 0 ∧
      (fnOf (serverFunctionGet s fname) fname).jobTotal ≥
        (fnOf (serverFunctionGet s fname) fname).maxQueueSize)) :
    ((serverJobAdd s fname uniq dataArg p false cb io g).ret ≠
        GRet.success →
      (serverJobAdd s fname uniq dataArg p false cb io g).job = none ∧
      (serverJobAdd s fname uniq dataArg p false cb io g).state.jobs =
        (serverFunctionGet s fname).jobs ∧
      (serverJobAdd s fname uniq dataArg p false cb io g).state.uniqueHash =
        (serverFunctionGet s fname).uniqueHash ∧
      (serverJobAdd s fname uniq dataArg p false cb io g).state.jobHash =
        (serverFunctionGet s fname).jobHash ∧
      (serverJobAdd s fname uniq dataArg p false cb io g).state.functions =
        (serverFunctionGet s fname).functions) ∧
    (cb.addRet ≠ GRet.success →
      (serverJobAdd s fname uniq dataArg p false cb io g).ret = cb.addRet ∧
      (serverJobAdd s fname uniq dataArg p false cb io g).events =
        [QEvent.qadd]) ∧
    (cb.addRet = GRet.success → cb.hasFlush = true →
      cb.flushRet ≠ GRet.success →
      (serverJobAdd s fname uniq dataArg p false cb io g).ret =
        cb.flushRet ∧
      (serverJobAdd s fname uniq dataArg p false cb io g).events =
        [QEvent.qadd, QEvent.qflush]) ∧
    (cb.addRet = GRet.success →
      (cb.hasFlush = true → cb.flushRet = GRet.success) →
      (serverJobAdd s fname uniq dataArg p false cb io g).ret ≠
        GRet.success →
      (serverJobAdd s fname uniq dataArg p false cb io g).events =
        [QEvent.qadd] ++ (if cb.hasFlush then [QEvent.qflush] else []) ++
          (if cb.hasDone then [QEvent.qdone] else [])) := by
  have hrep : ¬((freshState (serverFunctionGet s fname) fname uniq dataArg p
      (jobAddKey uniq dataArg g)).replay = true) := by
    show ¬((serverFunctionGet s fname).replay = true)
    rw [serverFunctionGet_replay, hreplay]
    simp
  have hcbcond : (!false && cb.hasAdd) = true := by simp [hAdd]
  simp only [serverJobAdd, hmiss]
  rw [if_neg hfull, if_neg hrep, if_pos hcbcond]
  by_cases haddr : cb.addRet = GRet.success
  · rw [if_neg (not_not_intro haddr)]
    by_cases hfl : cb.hasFlush = true ∧ cb.flushRet ≠ GRet.success
    · rw [if_pos hfl]
      refine ⟨?_, ?_, ?_, ?_⟩
      · intro _
        rw [serverJobFree_freshState]
        exact ⟨rfl, rfl, rfl, rfl, rfl⟩
      · intro h
        exact absurd haddr h
      · intro _ _ _
        exact ⟨rfl, rfl⟩
      · intro _ hflok _
        exact absurd (hflok hfl.1) hfl.2
    · rw [if_neg hfl]
      refine ⟨?_, ?_, ?_, ?_⟩
      · intro hr
        obtain ⟨hjob, hqf, hstate, _⟩ := jobAddFinish_of_fail _ _ _ _ _ _ hr
        obtain ⟨r1, r2, r3, r4⟩ := queue_fail_rollback (serverFunctionGet s
          fname) fname uniq dataArg p (jobAddKey uniq dataArg g) io hqf
        rw [hstate]
        exact ⟨hjob, r1, r2, r3, r4⟩
      · intro h
        exact absurd haddr h
      · intro _ hf hfr
        exact absurd ⟨hf, hfr⟩ hfl
      · intro _ _ hr
        obtain ⟨_, _, _, hev⟩ := jobAddFinish_of_fail _ _ _ _ _ _ hr
        rw [hev]
        simp
  · rw [if_pos haddr]
    refine ⟨?_, ?_, ?_, ?_⟩
    · intro _
      rw [serverJobFree_freshState]
      exact ⟨rfl, rfl, rfl, rfl, rfl⟩
    · intro _
      exact ⟨rfl, rfl⟩
    · intro h
      exact absurd h haddr
    · intro h
      exact absurd h haddr

/-- Adapter whose `queue_add` fails with an arbitrary backend error. -/
def failCb : QueueCallbacks :=
  { hasAdd := true, addRet := GRet.other 5, hasFlush := false,
    flushRet := GRet.success, hasDone := true }

/-- Witness for C5: with a failing `queue_add`, the submission returns no
job, reports the adapter's error with exactly one `add` call, and the
broker state is rolled back. -/
theorem job_add_adapter_rollback_witness :
    ((serverJobAdd emptyServer [102] [117] [65] Priority.normal false failCb
        okIo 0).job = none ∧
      (serverJobAdd emptyServer [102] [117] [65] Priority.normal false failCb
        okIo 0).state.jobs = (serverFunctionGet emptyServer [102]).jobs ∧
      (serverJobAdd emptyServer [102] [117] [65] Priority.normal false failCb
        okIo 0).state.uniqueHash =
        (serverFunctionGet emptyServer [102]).uniqueHash ∧
      (serverJobAdd emptyServer [102] [117] [65] Priority.normal false failCb
        okIo 0).state.jobHash =
        (serverFunctionGet emptyServer [102]).jobHash ∧
      (serverJobAdd emptyServer [102] [117] [65] Priority.normal false failCb
        okIo 0).state.functions =
        (serverFunctionGet emptyServer [102]).functions) ∧
    (serverJobAdd emptyServer [102] [117] [65] Priority.normal false failCb
      okIo 0).ret = failCb.addRet ∧
    (serverJobAdd emptyServer [102] [117] [65] Priority.normal false failCb
      okIo 0).events = [QEvent.qadd] := by
  have h := job_add_adapter_rollback emptyServer [102] [117] [65]
    Priority.normal failCb okIo 0 (by decide) (by decide) (by decide)
    (by decide)
  exact ⟨h.1 (by decide), h.2.1 (by decide)⟩

theorem jobAddFinish_functions_keys (S : Server) (jid : Nat) (hc : Bool)
    (cb : QueueCallbacks) (io : Nat → GRet) (evs : List QEvent) (j : SJob)
    (t : Nat) (hj : alookup jid S.jobs = some j)
    (h : (jobAddFinish S jid hc cb io evs).job = some t) :
    (jobAddFinish S jid hc cb io evs).state.functions.map Prod.fst =
      S.functions.map Prod.fst := by
  rw [jobAddFinish] at h ⊢
  by_cases hq : (serverJobQueue S jid io).1 = GRet.success
  · rw [if_pos hq]
    show (serverJobQueue S jid io).2.functions.map Prod.fst = _
    rw [serverJobQueue_functions_of_success S jid io j hj hq, aupdate_keys]
    by_cases hw : j.worker.isSome <;> simp [hw, aupdate_keys]
  · rw [if_neg hq] at h
    exact absurd h (by simp)

/-- When the dedup lookup misses and `gearman_server_job_add` returns a job,
that job is the freshly created one: its id is the next counter value, the
result is `GEARMAN_SUCCESS`, the job sits at the head of the job map and of
both hash chains with the expected record (`QUEUED` set on the replay and
successful-adapter paths), the function name set is unchanged, and the
adapter calls are none under replay, `add` (+`flush` when installed) on the
background path, and none when no adapter is involved. -/
theorem job_add_created
    (s : Server) (fname uniq dataArg : List Nat) (p : Priority) (hc : Bool)
    (cb : QueueCallbacks) (io : Nat → GRet) (g : Nat) (jid : Nat)
    (hlk : jobAddLookup (serverFunctionGet s fname) fname uniq dataArg =
      none)
    (h : (serverJobAdd s fname uniq dataArg p hc cb io g).job = some jid) :
    jid = (serverFunctionGet s fname).nextJobId ∧
    (serverJobAdd s fname uniq dataArg p hc cb io g).ret = GRet.success ∧
    (serverJobAdd s fname uniq dataArg p hc cb io g).state.jobs =
      (jid, { freshJob (serverFunctionGet s fname) fname uniq dataArg p
          (jobAddKey uniq dataArg g) with
          queuedFlag := (s.replay || (!hc && cb.hasAdd)) }) ::
        (serverFunctionGet s fname).jobs ∧
    (serverJobAdd s fname uniq dataArg p hc cb io g).state.uniqueHash =
      jid :: (serverFunctionGet s fname).uniqueHash ∧
    (serverJobAdd s fname uniq dataArg p hc cb io g).state.jobHash =
      jid :: (serverFunctionGet s fname).jobHash ∧
    (serverJobAdd s fname uniq dataArg p hc cb io g).state.functions.map
      Prod.fst =
      (serverFunctionGet s fname).functions.map Prod.fst ∧
    (serverJobAdd s fname uniq dataArg p hc cb io g).events =
      (if s.replay then [] else if !hc && cb.hasAdd then
        [QEvent.qadd] ++ (if cb.hasFlush then [QEvent.qflush] else [])
      else []) := by
  simp only [serverJobAdd, hlk] at h ⊢
  split at h
  · simp at h
  rename_i hfull
  rw [if_neg hfull]
  split at h
  · rename_i hrep
    have hsrep : s.replay = true := by
      rw [← serverFunctionGet_replay s fname]
      exact hrep
    rw [if_pos hrep]
    obtain ⟨ht, hret, hev, hjobs, huh, hjh⟩ := jobAddFinish_of_some _ _ _ _ _
      _ _ _ (by simp [updateJob, alookup_aupdate, alookup, freshState] :
        alookup (serverFunctionGet s fname).nextJobId _ =
        some { freshJob (serverFunctionGet s fname) fname uniq dataArg p
          (jobAddKey uniq dataArg g) with queuedFlag := true }) h
    have hkeys := jobAddFinish_functions_keys _ _ _ _ _ _ _ _
      (by simp [updateJob, alookup_aupdate, alookup, freshState] :
        alookup (serverFunctionGet s fname).nextJobId _ =
        some { freshJob (serverFunctionGet s fname) fname uniq dataArg p
          (jobAddKey uniq dataArg g) with queuedFlag := true }) h
    subst ht
    refine ⟨rfl, hret, ?_, ?_, ?_, ?_, ?_⟩
    · rw [hjobs]
      simp [updateJob, freshState, aupdate, freshJob, hsrep]
    · rw [huh]
      simp [updateJob, freshState]
    · rw [hjh]
      simp [updateJob, freshState]
    · rw [hkeys]
      simp [updateJob, freshState, aupdate_keys]
    · rw [hev, hsrep]
      simp
  · rename_i hrep
    have hsrep : s.replay = false := by
      rw [← serverFunctionGet_replay s fname]
      simp only [freshState] at hrep
      simpa using hrep
    rw [if_neg hrep]
    split at h
    · rename_i hcb
      rw [if_pos hcb]
      split at h
      · simp at h
      · rename_i hadd
        rw [if_neg hadd]
        split at h
        · simp at h
        · rename_i hflush
          rw [if_neg hflush]
          obtain ⟨ht, hret, hev, hjobs, huh, hjh⟩ := jobAddFinish_of_some _ _
            _ _ _ _ _ _
            (by simp [updateJob, alookup_aupdate, alookup, freshState] :
              alookup (serverFunctionGet s fname).nextJobId _ =
              some { freshJob (serverFunctionGet s fname) fname uniq dataArg
                p (jobAddKey uniq dataArg g) with queuedFlag := true }) h
          have hkeys := jobAddFinish_functions_keys _ _ _ _ _ _ _ _
            (by simp [updateJob, alookup_aupdate, alookup, freshState] :
              alookup (serverFunctionGet s fname).nextJobId _ =
              some { freshJob (serverFunctionGet s fname) fname uniq dataArg
                p (jobAddKey uniq dataArg g) with queuedFlag := true }) h
          subst ht
          refine ⟨rfl, hret, ?_, ?_, ?_, ?_, ?_⟩
          · rw [hjobs]
            simp [updateJob, freshState, aupdate, freshJob, hsrep, hcb]
          · rw [huh]
            simp [updateJob, freshState]
          · rw [hjh]
            simp [updateJob, freshState]
          · rw [hkeys]
            simp [updateJob, freshState, aupdate_keys]
          · rw [hev, hsrep, hcb]
            simp
    · rename_i hcb
      rw [if_neg hcb]
      have hcbf : (!hc && cb.hasAdd) = false := by
        cases hx : (!hc && cb.hasAdd) with
        | false => rfl
        | true => exact absurd hx hcb
      obtain ⟨ht, hret, hev, hjobs, huh, hjh⟩ := jobAddFinish_of_some _ _ _ _
        _ _ _ _ (by simp [alookup, freshState] :
          alookup (serverFunctionGet s fname).nextJobId _ =
          some (freshJob (serverFunctionGet s fname) fname uniq dataArg p
            (jobAddKey uniq dataArg g))) h
      have hkeys := jobAddFinish_functions_keys _ _ _ _ _ _ _ _
        (by simp [alookup, freshState] :
          alookup (serverFunctionGet s fname).nextJobId _ =
          some (freshJob (serverFunctionGet s fname) fname uniq dataArg p
            (jobAddKey uniq dataArg g))) h
      subst ht
      refine ⟨rfl, hret, ?_, ?_, ?_, ?_, ?_⟩
      · rw [hjobs]
        simp [freshState, aupdate, freshJob, hsrep, hcbf]
      · rw [huh]
        simp [freshState]
      · rw [hjh]
        simp [freshState]
      · rw [hkeys]
        simp [freshState, aupdate_keys]
      · rw [hev, hsrep, hcbf]
        simp

theorem alookup_isSome_of_mem {κ : Type} [DecidableEq κ] {α : Type} {i : κ}
    {l : List (κ × α)} (h : i ∈ l.map Prod.fst) : (alookup i l).isSome := by
  induction l with
  | nil => simp at h
  | cons p t ih =>
    obtain ⟨k, v⟩ := p
    by_cases hk : k = i
    · simp [alookup, hk]
    · simp only [List.map_cons, List.mem_cons] at h
      rcases h with h | h
      · exact absurd h.symm hk
      · simp only [alookup, hk, if_false]
        exact ih h

theorem serverFunctionGet_mem (s : Server) (fname : List Nat) :
    fname ∈ (serverFunctionGet s fname).functions.map Prod.fst := by
  rw [serverFunctionGet]
  cases h : alookup fname s.functions with
  | some f => exact alookup_mem_keys h
  | none => simp

theorem serverFunctionGet_of_mem (s' : Server) (fname : List Nat)
    (h : fname ∈ s'.functions.map Prod.fst) :
    serverFunctionGet s' fname = s' := by
  rw [serverFunctionGet]
  cases hl : alookup fname s'.functions with
  | some f => rfl
  | none =>
    have := alookup_isSome_of_mem h
    rw [hl] at this
    cases this

theorem serverJobAdd_hit (s' : Server) (fname uniq d : List Nat)
    (p : Priority) (hc : Bool) (cb : QueueCallbacks) (io : Nat → GRet)
    (g : Nat) (j0 : Nat) (hget : serverFunctionGet s' fname = s')
    (hlk2 : jobAddLookup s' fname uniq d = some j0) :
    serverJobAdd s' fname uniq d p hc cb io g =
      { job := some j0, ret := GRet.jobExists, state := s',
        events := [] } := by
  simp [serverJobAdd, hget, hlk2]

/-- 64 bytes of `a`: one byte longer than the unique buffer can keep. -/
def bigUnique : List Nat := List.replicate 64 97

set_option maxRecDepth 8192 in
/-- C4 counterexample.  Submitting the same 64-byte unique twice creates two
distinct jobs: the stored unique is truncated to 63 bytes by `snprintf`
into the 64-byte buffer, so the dedup `strcmp` of the second call fails; the
second call returns a new job with `GEARMAN_SUCCESS` (not
`GEARMAN_JOB_EXISTS`) and `job_total` reaches 2. -/
theorem job_add_dedup_claim_false :
    (serverJobAdd emptyServer [102] bigUnique [65] Priority.normal false noCb
      okIo 0).job = some 0 ∧
    (serverJobAdd (serverJobAdd emptyServer [102] bigUnique [65]
        Priority.normal false noCb okIo 0).state [102] bigUnique [65]
        Priority.normal false noCb okIo 0).job = some 1 ∧
    (serverJobAdd (serverJobAdd emptyServer [102] bigUnique [65]
        Priority.normal false noCb okIo 0).state [102] bigUnique [65]
        Priority.normal false noCb okIo 0).ret = GRet.success ∧
    ((serverJobAdd (serverJobAdd emptyServer [102] bigUnique [65]
        Priority.normal false noCb okIo 0).state [102] bigUnique [65]
        Priority.normal false noCb okIo 0).ret = GRet.jobExists → False) ∧
    (alookup [102] (serverJobAdd (serverJobAdd emptyServer [102] bigUnique
        [65] Priority.normal false noCb okIo 0).state [102] bigUnique [65]
        Priority.normal false noCb okIo 0).state.functions).map
      SFn.jobTotal = some 2 := by
  decide

/-- C4 (amended).  Provided the unique's NUL-free prefix fits the 64-byte
unique buffer (at most 63 bytes), two calls of `gearman_server_job_add` on
the same function with the same non-empty unique (or with unique `"-"` and
the same non-empty data) — the first returning a job — give, on the second
call, the very same job id with `GEARMAN_JOB_EXISTS` and no further state
change or adapter call (so `job_total` was bumped only by the first call).
For longer uniques the stored copy is truncated and the dedup lookup can
miss. -/
theorem job_add_dedup
    (s : Server) (fname uniq d1 d2 : List Nat) (p1 p2 : Priority)
    (hc1 hc2 : Bool) (cb1 cb2 : QueueCallbacks) (io1 io2 : Nat → GRet)
    (g1 g2 : Nat) (jid : Nat)
    (h63 : (cstr uniq).length ≤ 63)
    (hne : uniq ≠ [])
    (hdash : uniq = [45] → (d1 ≠ [] ∧ d2 = d1))
    (h1 : (serverJobAdd s fname uniq d1 p1 hc1 cb1 io1 g1).job = some jid) :
    (serverJobAdd (serverJobAdd s fname uniq d1 p1 hc1 cb1 io1 g1).state
        fname uniq d2 p2 hc2 cb2 io2 g2).job = some jid ∧
    (serverJobAdd (serverJobAdd s fname uniq d1 p1 hc1 cb1 io1 g1).state
        fname uniq d2 p2 hc2 cb2 io2 g2).ret = GRet.jobExists ∧
    (serverJobAdd (serverJobAdd s fname uniq d1 p1 hc1 cb1 io1 g1).state
        fname uniq d2 p2 hc2 cb2 io2 g2).state =
      (serverJobAdd s fname uniq d1 p1 hc1 cb1 io1 g1).state ∧
    (serverJobAdd (serverJobAdd s fname uniq d1 p1 hc1 cb1 io1 g1).state
        fname uniq d2 p2 hc2 cb2 io2 g2).events = [] := by
  have hlen0 : ¬(uniq.length = 0) := by
    intro hh
    exact hne (List.length_eq_zero.mp hh)
  have hstore : storeUnique uniq = cstr uniq := by
    rw [storeUnique]
    exact List.take_of_length_le h63
  cases hlk : jobAddLookup (serverFunctionGet s fname) fname uniq d1 with
  | some j0 =>
    have e1 : serverJobAdd s fname uniq d1 p1 hc1 cb1 io1 g1 =
        { job := some j0, ret := GRet.jobExists,
          state := serverFunctionGet s fname, events := [] } := by
      simp [serverJobAdd, hlk]
    rw [e1] at h1
    have hj0 : j0 = jid := by
      simpa using h1
    subst hj0
    have hst : (serverJobAdd s fname uniq d1 p1 hc1 cb1 io1 g1).state =
        serverFunctionGet s fname := by
      rw [e1]
    have hget2 : serverFunctionGet (serverJobAdd s fname uniq d1 p1 hc1 cb1
        io1 g1).state fname =
        (serverJobAdd s fname uniq d1 p1 hc1 cb1 io1 g1).state := by
      rw [hst]
      exact serverFunctionGet_of_mem _ _ (serverFunctionGet_mem s fname)
    have hlk2 : jobAddLookup (serverJobAdd s fname uniq d1 p1 hc1 cb1 io1
        g1).state fname uniq d2 = some j0 := by
      rw [hst]
      by_cases hd : uniq = [45]
      · obtain ⟨hd1, hd2⟩ := hdash hd
        rw [hd2]
        exact hlk
      · rw [jobAddLookup] at hlk ⊢
        rw [if_neg hlen0, if_neg hd] at hlk ⊢
        exact hlk
    rw [serverJobAdd_hit _ _ _ _ _ _ _ _ _ _ hget2 hlk2]
    exact ⟨rfl, rfl, rfl, rfl⟩
  | none =>
    obtain ⟨hjid, _, hjobs, huh, _, hkeys, _⟩ :=
      job_add_created s fname uniq d1 p1 hc1 cb1 io1 g1 jid hlk h1
    have hmem : fname ∈ (serverJobAdd s fname uniq d1 p1 hc1 cb1 io1
        g1).state.functions.map Prod.fst := by
      rw [hkeys]
      exact serverFunctionGet_mem s fname
    have hget2 : serverFunctionGet (serverJobAdd s fname uniq d1 p1 hc1 cb1
        io1 g1).state fname =
        (serverJobAdd s fname uniq d1 p1 hc1 cb1 io1 g1).state :=
      serverFunctionGet_of_mem _ _ hmem
    have hjlook : alookup jid (serverJobAdd s fname uniq d1 p1 hc1 cb1 io1
        g1).state.jobs = some { freshJob (serverFunctionGet s fname) fname
          uniq d1 p1 (jobAddKey uniq d1 g1) with
          queuedFlag := (s.replay || (!hc1 && cb1.hasAdd)) } := by
      rw [hjobs]
      simp [alookup]
    have hlk2 : jobAddLookup (serverJobAdd s fname uniq d1 p1 hc1 cb1 io1
        g1).state fname uniq d2 = some jid := by
      by_cases hd : uniq = [45]
      · obtain ⟨hd1, hd2⟩ := hdash hd
        have hd1len : ¬(d1.length = 0) := by
          intro hh
          exact hd1 (List.length_eq_zero.mp hh)
        rw [jobAddLookup, if_neg hlen0, if_pos hd, hd2, if_neg hd1len]
        rw [serverJobGetUnique, huh]
        have hkey1 : jobAddKey uniq d1 g1 = serverJobHash d1 := by
          rw [jobAddKey, if_neg hlen0, if_pos hd, if_neg hd1len]
        have hp : uniqueJobMatch (serverJobAdd s fname uniq d1 p1 hc1 cb1
            io1 g1).state (serverJobHash d1) fname d1 d1.length jid =
            true := by
          rw [uniqueJobMatch, hjlook]
          simp [freshJob, hkey1, hd1len]
        rw [List.find?_cons_of_pos _ hp]
      · have hkey1 : jobAddKey uniq d1 g1 = serverJobHash uniq := by
          rw [jobAddKey, if_neg hlen0, if_neg hd]
        rw [jobAddLookup, if_neg hlen0, if_neg hd]
        rw [serverJobGetUnique, huh]
        have hp : uniqueJobMatch (serverJobAdd s fname uniq d1 p1 hc1 cb1
            io1 g1).state (serverJobHash uniq) fname uniq 0 jid = true := by
          rw [uniqueJobMatch, hjlook]
          simp [freshJob, hkey1, hstore]
        rw [List.find?_cons_of_pos _ hp]
    rw [serverJobAdd_hit _ _ _ _ _ _ _ _ _ _ hget2 hlk2]
    exact ⟨rfl, rfl, rfl, rfl⟩

/-- Witness for the amended C4: unique `[117]` submitted twice (payloads
`[65]` then `[66]`) from the empty broker; the second call returns job 0
with `GEARMAN_JOB_EXISTS` and leaves the state untouched. -/
theorem job_add_dedup_witness :
    (serverJobAdd (serverJobAdd emptyServer [102] [117] [65] Priority.normal
        false noCb okIo 0).state [102] [117] [66] Priority.low false noCb
        okIo 0).job = some 0 ∧
    (serverJobAdd (serverJobAdd emptyServer [102] [117] [65] Priority.normal
        false noCb okIo 0).state [102] [117] [66] Priority.low false noCb
        okIo 0).ret = GRet.jobExists ∧
    (serverJobAdd (serverJobAdd emptyServer [102] [117] [65] Priority.normal
        false noCb okIo 0).state [102] [117] [66] Priority.low false noCb
        okIo 0).state =
      (serverJobAdd emptyServer [102] [117] [65] Priority.normal false noCb
        okIo 0).state ∧
    (serverJobAdd (serverJobAdd emptyServer [102] [117] [65] Priority.normal
        false noCb okIo 0).state [102] [117] [66] Priority.low false noCb
        okIo 0).events = [] :=
  job_add_dedup emptyServer [102] [117] [65] [66] Priority.normal
    Priority.low false false noCb noCb okIo okIo 0 0 0 (by decide)
    (by decide) (by decide) (by decide)

theorem alookup_mem_pair {κ : Type} [DecidableEq κ] {α : Type} {i : κ}
    {l : List (κ × α)} {v : α} (h : alookup i l = some v) : (i, v) ∈ l := by
  induction l with
  | nil => simp [alookup] at h
  | cons p t ih =>
    obtain ⟨k, w⟩ := p
    by_cases hk : k = i
    · subst hk
      rw [alookup, if_pos rfl] at h
      injection h with h
      subst h
      exact List.mem_cons_self _ _
    · rw [alookup, if_neg hk] at h
      exact List.mem_cons_of_mem _ (ih h)

theorem aupdate_forall {κ : Type} [DecidableEq κ] {α : Type}
    (P : κ × α → Prop) (i : κ) (g : α → α) (l : List (κ × α))
    (hl : ∀ x ∈ l, P x) (hg : ∀ k v, P (k, v) → P (k, g v)) :
    ∀ x ∈ aupdate i g l, P x := by
  induction l with
  | nil => intro x hx; simp [aupdate] at hx
  | cons p t ih =>
    obtain ⟨k, v⟩ := p
    intro x hx
    by_cases hk : k = i
    · rw [aupdate, if_pos hk] at hx
      rcases List.mem_cons.mp hx with h | h
      · subst h
        exact hg k v (hl (k, v) (List.mem_cons_self _ _))
      · exact hl x (List.mem_cons_of_mem _ h)
    · rw [aupdate, if_neg hk] at hx
      rcases List.mem_cons.mp hx with h | h
      · subst h
        exact hl (k, v) (List.mem_cons_self _ _)
      · exact ih (fun y hy => hl y (List.mem_cons_of_mem _ hy)) x h

theorem serverFunctionGet_parts (s : Server) (fname : List Nat) :
    (serverFunctionGet s fname).jobs = s.jobs ∧
    (serverFunctionGet s fname).uniqueHash = s.uniqueHash ∧
    (serverFunctionGet s fname).jobHash = s.jobHash ∧
    (serverFunctionGet s fname).nextJobId = s.nextJobId ∧
    (serverFunctionGet s fname).cons = s.cons := by
  rw [serverFunctionGet]
  cases alookup fname s.functions <;> exact ⟨rfl, rfl, rfl, rfl, rfl⟩

theorem serverFunctionGet_functions (s : Server) (fname : List Nat)
    (P : List Nat × SFn → Prop) (hs : ∀ x ∈ s.functions, P x)
    (hnew : P (fname, newSFn)) :
    ∀ x ∈ (serverFunctionGet s fname).functions, P x := by
  rw [serverFunctionGet]
  cases alookup fname s.functions with
  | some f => exact hs
  | none =>
    intro x hx
    rcases List.mem_cons.mp hx with h | h
    · subst h; exact hnew
    · exact hs x h

theorem cstr_eq_self {l : List Nat} (h : ∀ b ∈ l, ¬b = 0) : cstr l = l := by
  induction l with
  | nil => rfl
  | cons b t ih =>
    rw [cstr, List.takeWhile]
    have hb : (b != 0) = true := by
      simpa using h b (List.mem_cons_self _ _)
    rw [hb]
    simp only []
    rw [show List.takeWhile (fun b => b != 0) t = cstr t from rfl,
      ih (fun x hx => h x (List.mem_cons_of_mem _ hx))]

theorem serverJobFree_replay (s : Server) (i : Nat) :
    (serverJobFree s i).replay = s.replay := by
  rw [serverJobFree]
  cases hj : alookup i s.jobs with
  | none => rfl
  | some j => by_cases hw : j.worker.isSome <;> simp [hw, updateFn]

theorem jobAddFinish_state_replay (S : Server) (jid : Nat) (hc : Bool)
    (cb : QueueCallbacks) (io : Nat → GRet) (evs : List QEvent) :
    (jobAddFinish S jid hc cb io evs).state.replay = S.replay := by
  rw [jobAddFinish]
  obtain ⟨_, _, hr, _, _⟩ := serverJobQueue_hashes S jid io
  by_cases hq : (serverJobQueue S jid io).1 = GRet.success
  · rw [if_pos hq]
    exact hr
  · rw [if_neg hq]
    show (serverJobFree _ _).replay = _
    rw [serverJobFree_replay]
    exact hr

theorem serverJobAdd_state_replay (s : Server) (fname uniq dataArg : List Nat)
    (p : Priority) (hc : Bool) (cb : QueueCallbacks) (io : Nat → GRet)
    (g : Nat) :
    (serverJobAdd s fname uniq dataArg p hc cb io g).state.replay =
      s.replay := by
  simp only [serverJobAdd]
  split
  · exact serverFunctionGet_replay s fname
  split
  · exact serverFunctionGet_replay s fname
  split
  · rw [jobAddFinish_state_replay]
    exact serverFunctionGet_replay s fname
  split
  · split
    · show (serverJobFree _ _).replay = _
      rw [serverJobFree_replay]
      exact serverFunctionGet_replay s fname
    split
    · show (serverJobFree _ _).replay = _
      rw [serverJobFree_replay]
      exact serverFunctionGet_replay s fname
    · rw [jobAddFinish_state_replay]
      exact serverFunctionGet_replay s fname
  · rw [jobAddFinish_state_replay]
    exact serverFunctionGet_replay s fname

theorem serverJobQueue_success_of_no_workers (S : Server) (jid : Nat)
    (io : Nat → GRet) (j : SJob) (hj : alookup jid S.jobs = some j)
    (hwl : ((alookup j.fn (queuedMid S jid j).functions).map
      SFn.workerCons).getD [] = []) :
    (serverJobQueue S jid io).1 = GRet.success := by
  simp only [serverJobQueue, hj]
  rw [hwl]
  rw [show noopLoop (queuedMid S jid j) [] io 0 =
    (GRet.success, queuedMid S jid j) from rfl]
  simp

theorem jobAddFinish_functions_entries (S : Server) (jid : Nat) (hc : Bool)
    (cb : QueueCallbacks) (io : Nat → GRet) (evs : List QEvent) (j : SJob)
    (t : Nat) (hj : alookup jid S.jobs = some j)
    (h : (jobAddFinish S jid hc cb io evs).job = some t)
    (P : List Nat × SFn → Prop) (hS : ∀ x ∈ S.functions, P x)
    (hP : ∀ k v w, P (k, v) → v.maxQueueSize = w.maxQueueSize →
      v.workerCons = w.workerCons → P (k, w)) :
    ∀ x ∈ (jobAddFinish S jid hc cb io evs).state.functions, P x := by
  rw [jobAddFinish] at h ⊢
  by_cases hq : (serverJobQueue S jid io).1 = GRet.success
  · rw [if_pos hq]
    show ∀ x ∈ (serverJobQueue S jid io).2.functions, P x
    rw [serverJobQueue_functions_of_success S jid io j hj hq]
    have hmid : ∀ x ∈ (if j.worker.isSome then
        aupdate j.fn (fun f => { f with jobRunning := f.jobRunning - 1 })
          S.functions
      else S.functions), P x := by
      by_cases hw : j.worker.isSome
      · rw [if_pos hw]
        exact aupdate_forall P _ _ _ hS (fun k v hv => hP k v _ hv rfl rfl)
      · rw [if_neg hw]
        exact hS
    exact aupdate_forall P _ _ _ hmid (fun k v hv =>
      hP k v _ hv (fnEnqueue_maxQueueSize v j.priority jid).symm
        (fnEnqueue_workerCons v j.priority jid).symm)
  · rw [if_neg hq] at h
    exact absurd h (by simp)

theorem serverJobAdd_replay_job (s : Server) (fname uniq dataArg : List Nat)
    (p : Priority) (hc : Bool) (cb : QueueCallbacks) (io : Nat → GRet)
    (g : Nat) (f0 : SFn) (hrep : s.replay = true)
    (hlk : jobAddLookup (serverFunctionGet s fname) fname uniq dataArg =
      none)
    (hf0 : alookup fname (serverFunctionGet s fname).functions = some f0)
    (hmax : f0.maxQueueSize = 0) (hwc : f0.workerCons = []) :
    (serverJobAdd s fname uniq dataArg p hc cb io g).job =
      some (serverFunctionGet s fname).nextJobId := by
  have hfull : ¬((fnOf (serverFunctionGet s fname) fname).maxQueueSize > 0 ∧
      (fnOf (serverFunctionGet s fname) fname).jobTotal ≥
        (fnOf (serverFunctionGet s fname) fname).maxQueueSize) := by
    rw [fnOf, hf0]
    simp [hmax]
  have hrep1 : (freshState (serverFunctionGet s fname) fname uniq dataArg p
      (jobAddKey uniq dataArg g)).replay = true := by
    show (serverFunctionGet s fname).replay = true
    rw [serverFunctionGet_replay]
    exact hrep
  simp only [serverJobAdd, hlk]
  rw [if_neg hfull, if_pos hrep1, jobAddFinish]
  have hj2 : alookup (serverFunctionGet s fname).nextJobId
      (updateJob (freshState (serverFunctionGet s fname) fname uniq dataArg
        p (jobAddKey uniq dataArg g)) (serverFunctionGet s fname).nextJobId
        (fun j => { j with queuedFlag := true })).jobs =
      some { freshJob (serverFunctionGet s fname) fname uniq dataArg p
             (jobAddKey uniq dataArg g) with queuedFlag := true } := by
    simp [updateJob, alookup_aupdate, alookup, freshState]
  have hq := serverJobQueue_success_of_no_workers _ _ io _ hj2 (by
    rw [queuedMid_functions]
    rw [if_neg (by simp [freshJob] :
      ¬(({ freshJob (serverFunctionGet s fname) fname uniq dataArg p
        (jobAddKey uniq dataArg g) with
        queuedFlag := true } : SJob).worker.isSome = true))]
    show ((alookup fname (aupdate fname
      (fun g => { g with jobTotal := g.jobTotal + 1 })
      (serverFunctionGet s fname).functions)).map SFn.workerCons).getD [] =
      []
    rw [alookup_aupdate, if_pos rfl, hf0]
    simpa using hwc)
  rw [if_pos hq]

theorem serverJobQueue_functions_entries (S : Server) (i : Nat)
    (io : Nat → GRet) (P : List Nat × SFn → Prop)
    (hs : ∀ x ∈ S.functions, P x)
    (hP : ∀ k v w, P (k, v) → v.maxQueueSize = w.maxQueueSize →
      v.workerCons = w.workerCons → P (k, w)) :
    ∀ x ∈ (serverJobQueue S i io).2.functions, P x := by
  cases hj : alookup i S.jobs with
  | none =>
    simp only [serverJobQueue, hj]
    exact hs
  | some j =>
    have hmid : ∀ x ∈ (queuedMid S i j).functions, P x := by
      rw [queuedMid_functions]
      by_cases hw : j.worker.isSome
      · rw [if_pos hw]
        exact aupdate_forall P _ _ _ hs (fun k v hv => hP k v _ hv rfl rfl)
      · rw [if_neg hw]
        exact hs
    have hnlf : ∀ x ∈ (noopLoop (queuedMid S i j)
        (((alookup j.fn (queuedMid S i j).functions).map
          SFn.workerCons).getD []) io 0).2.functions, P x := by
      rw [noopLoop_functions]
      exact hmid
    simp only [serverJobQueue, hj]
    by_cases hnl : (noopLoop (queuedMid S i j)
        (((alookup j.fn (queuedMid S i j).functions).map
          SFn.workerCons).getD []) io 0).1 = GRet.success
    · rw [if_pos hnl]
      show ∀ x ∈ aupdate j.fn (fun f => fnEnqueue f j.priority i) _, P x
      exact aupdate_forall P _ _ _ hnlf (fun k v hv =>
        hP k v _ hv (fnEnqueue_maxQueueSize v j.priority i).symm
          (fnEnqueue_workerCons v j.priority i).symm)
    · rw [if_neg hnl]
      exact hnlf

theorem serverJobFree_functions_entries (S : Server) (i : Nat)
    (P : List Nat × SFn → Prop) (hs : ∀ x ∈ S.functions, P x)
    (hP : ∀ k v w, P (k, v) → v.maxQueueSize = w.maxQueueSize →
      v.workerCons = w.workerCons → P (k, w)) :
    ∀ x ∈ (serverJobFree S i).functions, P x := by
  cases hj : alookup i S.jobs with
  | none =>
    rw [serverJobFree, hj]
    exact hs
  | some j =>
    rw [serverJobFree, hj]
    have hmid : ∀ x ∈ (if j.worker.isSome then
        updateFn S j.fn (fun f => { f with jobRunning := f.jobRunning - 1 })
      else S).functions, P x := by
      by_cases hw : j.worker.isSome
      · rw [if_pos hw]
        exact aupdate_forall P _ _ _ hs (fun k v hv => hP k v _ hv rfl rfl)
      · rw [if_neg hw]
        exact hs
    show ∀ x ∈ aupdate j.fn (fun f => { f with jobTotal := f.jobTotal - 1 })
      (if j.worker.isSome then
        updateFn S j.fn (fun f => { f with jobRunning := f.jobRunning - 1 })
      else S).functions, P x
    exact aupdate_forall P _ _ _ hmid (fun k v hv => hP k v _ hv rfl rfl)

theorem jobAddFinish_functions_entries_all (S : Server) (jid : Nat)
    (hc : Bool) (cb : QueueCallbacks) (io : Nat → GRet) (evs : List QEvent)
    (P : List Nat × SFn → Prop) (hs : ∀ x ∈ S.functions, P x)
    (hP : ∀ k v w, P (k, v) → v.maxQueueSize = w.maxQueueSize →
      v.workerCons = w.workerCons → P (k, w)) :
    ∀ x ∈ (jobAddFinish S jid hc cb io evs).state.functions, P x := by
  rw [jobAddFinish]
  by_cases hq : (serverJobQueue S jid io).1 = GRet.success
  · rw [if_pos hq]
    exact serverJobQueue_functions_entries S jid io P hs hP
  · rw [if_neg hq]
    exact serverJobFree_functions_entries _ _ P
      (serverJobQueue_functions_entries S jid io P hs hP) hP

theorem serverJobAdd_functions_entries (s : Server)
    (fname uniq dataArg : List Nat) (p : Priority) (hc : Bool)
    (cb : QueueCallbacks) (io : Nat → GRet) (g : Nat)
    (P : List Nat × SFn → Prop) (hs : ∀ x ∈ s.functions, P x)
    (hnew : P (fname, newSFn))
    (hP : ∀ k v w, P (k, v) → v.maxQueueSize = w.maxQueueSize →
      v.workerCons = w.workerCons → P (k, w)) :
    ∀ x ∈ (serverJobAdd s fname uniq dataArg p hc cb io g).state.functions,
      P x := by
  have hs0 : ∀ x ∈ (serverFunctionGet s fname).functions, P x :=
    serverFunctionGet_functions s fname P hs hnew
  have hs1 : ∀ x ∈ (freshState (serverFunctionGet s fname) fname uniq
      dataArg p (jobAddKey uniq dataArg g)).functions, P x := by
    show ∀ x ∈ aupdate fname _ _, P x
    exact aupdate_forall P _ _ _ hs0 (fun k v hv => hP k v _ hv rfl rfl)
  simp only [serverJobAdd]
  split
  · exact hs0
  split
  · exact hs0
  split
  · exact jobAddFinish_functions_entries_all _ _ _ _ _ _ P hs1 hP
  split
  · split
    · exact serverJobFree_functions_entries _ _ P hs1 hP
    split
    · exact serverJobFree_functions_entries _ _ P hs1 hP
    · exact jobAddFinish_functions_entries_all _ _ _ _ _ _ P hs1 hP
  · exact jobAddFinish_functions_entries_all _ _ _ _ _ _ P hs1 hP

/-- When every live job's `(function, unique)` pair is recorded in `done`
and the record being replayed carries a pair not in `done` (unique nonempty,
not `"-"`, NUL-free), the dedup lookup of `gearman_server_job_add` misses:
`_server_job_get_unique`'s `strcmp` can only succeed against a stored unique
equal to the probed one. -/
theorem replay_lookup_none (s' : Server) (fname u d : List Nat)
    (done : List (List Nat × List Nat))
    (hinv : ∀ e ∈ s'.jobs, (e.2.fn, e.2.unique) ∈ done)
    (hne : ¬u.length = 0) (hdash : ¬u = [45]) (h0 : ∀ b ∈ u, ¬b = 0)
    (hnot : ¬(fname, u) ∈ done) :
    jobAddLookup s' fname u d = none := by
  rw [jobAddLookup, if_neg hne, if_neg hdash, serverJobGetUnique,
    List.find?_eq_none]
  intro x _
  cases hj : alookup x s'.jobs with
  | none => simp [uniqueJobMatch, hj]
  | some j =>
    intro hb
    rw [uniqueJobMatch, hj] at hb
    have hb2 : (j.uniqueKey % GEARMAN_JOB_HASH_SIZE ==
        serverJobHash u % GEARMAN_JOB_HASH_SIZE &&
        (j.fn == fname && j.uniqueKey == serverJobHash u &&
          j.unique == cstr u)) = true := hb
    simp only [Bool.and_eq_true, beq_iff_eq] at hb2
    obtain ⟨-, ⟨hfn, -⟩, huq⟩ := hb2
    have hm : (j.fn, j.unique) ∈ done := hinv (x, j) (alookup_mem_pair hj)
    rw [hfn, huq, cstr_eq_self h0] at hm
    exact hnot hm

/-- Replaying a list of persisted records `(function, unique, data,
priority)` at gearmand startup: one `gearman_server_job_add` per record with
no submitting client (server_queue.c replays with `server_client == NULL`),
threading the broker state and collecting every adapter invocation. -/
def replayAll (cb : QueueCallbacks) (io : Nat → GRet) (g : Nat) :
    List (List Nat × List Nat × List Nat × Priority) → Server →
      Server × List QEvent
  | [], s => (s, [])
  | r :: rest, s =>
    let R := serverJobAdd s r.1 r.2.1 r.2.2.1 r.2.2.2 false cb io g
    let next := replayAll cb io g rest R.state
    (next.1, R.events ++ next.2)

/-- Induction core for the replay fold: from a state in replay mode whose
jobs are all QUEUED with `(function, unique)` recorded in `done` and whose
functions all have the default `max_queue_size` 0 and empty worker lists,
replaying records with fresh, well-formed uniques adds exactly one job per
record, keeps every job QUEUED, and performs no adapter call. -/
theorem replayAll_spec (cb : QueueCallbacks) (io : Nat → GRet) (g : Nat) :
    ∀ (recs : List (List Nat × List Nat × List Nat × Priority))
      (done : List (List Nat × List Nat)) (s : Server),
      s.replay = true →
      (∀ e ∈ s.jobs, e.2.queuedFlag = true ∧ (e.2.fn, e.2.unique) ∈ done) →
      (∀ x ∈ s.functions, x.2.maxQueueSize = 0 ∧ x.2.workerCons = []) →
      (∀ r ∈ recs, ¬r.2.1 = [] ∧ ¬r.2.1 = [45] ∧ (∀ b ∈ r.2.1, ¬b = 0) ∧
        r.2.1.length ≤ 63) →
      (∀ r ∈ recs, ¬(r.1, r.2.1) ∈ done) →
      (recs.map (fun r => (r.1, r.2.1))).Nodup →
      (replayAll cb io g recs s).1.jobs.length =
        s.jobs.length + recs.length ∧
      (∀ e ∈ (replayAll cb io g recs s).1.jobs, e.2.queuedFlag = true) ∧
      (replayAll cb io g recs s).2 = [] := by
  intro recs
  induction recs with
  | nil =>
    intro done s _ hjinv _ _ _ _
    exact ⟨rfl, fun e he => (hjinv e he).1, rfl⟩
  | cons r rest ih =>
    intro done s hrep hjinv hfinv hconds hnotdone hnd
    obtain ⟨hu1, hu2, hu3, hu4⟩ := hconds r (List.mem_cons_self _ _)
    have hune : ¬r.2.1.length = 0 := fun hh => hu1 (List.length_eq_zero.mp hh)
    have hparts := serverFunctionGet_parts s r.1
    obtain ⟨f0, hf0⟩ := Option.isSome_iff_exists.mp
      (alookup_isSome_of_mem (serverFunctionGet_mem s r.1))
    have hf0P : f0.maxQueueSize = 0 ∧ f0.workerCons = [] :=
      serverFunctionGet_functions s r.1
        (fun x => x.2.maxQueueSize = 0 ∧ x.2.workerCons = []) hfinv
        ⟨rfl, rfl⟩ (r.1, f0) (alookup_mem_pair hf0)
    have hlk : jobAddLookup (serverFunctionGet s r.1) r.1 r.2.1 r.2.2.1 =
        none := by
      refine replay_lookup_none _ r.1 r.2.1 r.2.2.1 done ?_ hune hu2 hu3
        (hnotdone r (List.mem_cons_self _ _))
      intro e he
      rw [hparts.1] at he
      exact (hjinv e he).2
    have hjob := serverJobAdd_replay_job s r.1 r.2.1 r.2.2.1 r.2.2.2 false cb
      io g f0 hrep hlk hf0 hf0P.1 hf0P.2
    obtain ⟨hjid, hret, hjobs, huh, hjh, hkeys, hev⟩ := job_add_created s r.1
      r.2.1 r.2.2.1 r.2.2.2 false cb io g _ hlk hjob
    set R := serverJobAdd s r.1 r.2.1 r.2.2.1 r.2.2.2 false cb io g with hRdef
    have hRev : R.events = [] := by
      rw [hev, if_pos hrep]
    have hlen : R.state.jobs.length = s.jobs.length + 1 := by
      rw [hjobs, List.length_cons, hparts.1]
    have hrep2 : R.state.replay = true := by
      rw [hRdef, serverJobAdd_state_replay]
      exact hrep
    have hjinv2 : ∀ e ∈ R.state.jobs, e.2.queuedFlag = true ∧
        (e.2.fn, e.2.unique) ∈ (r.1, r.2.1) :: done := by
      intro e he
      rw [hjobs] at he
      rcases List.mem_cons.mp he with h | h
      · subst h
        refine ⟨by simp [freshJob, hrep], ?_⟩
        have hfn : ({ freshJob (serverFunctionGet s r.1) r.1 r.2.1 r.2.2.1
            r.2.2.2 (jobAddKey r.2.1 r.2.2.1 g) with
            queuedFlag := s.replay || (!false && cb.hasAdd) } : SJob).fn =
            r.1 := by
          simp [freshJob]
        have hun : ({ freshJob (serverFunctionGet s r.1) r.1 r.2.1 r.2.2.1
            r.2.2.2 (jobAddKey r.2.1 r.2.2.1 g) with
            queuedFlag := s.replay || (!false && cb.hasAdd) } : SJob).unique =
            r.2.1 := by
          simp only [freshJob]
          show storeUnique r.2.1 = r.2.1
          rw [storeUnique, cstr_eq_self hu3]
          exact List.take_of_length_le hu4
        rw [hfn, hun]
        exact List.mem_cons_self _ _
      · rw [hparts.1] at h
        obtain ⟨hq, hm⟩ := hjinv e h
        exact ⟨hq, List.mem_cons_of_mem _ hm⟩
    have hfinv2 : ∀ x ∈ R.state.functions, x.2.maxQueueSize = 0 ∧
        x.2.workerCons = [] := by
      refine serverJobAdd_functions_entries s r.1 r.2.1 r.2.2.1 r.2.2.2 false
        cb io g _ hfinv ⟨rfl, rfl⟩ ?_
      intro k v w hv hm hw
      exact ⟨hm.symm.trans hv.1, hw.symm.trans hv.2⟩
    have hconds2 : ∀ r' ∈ rest, ¬r'.2.1 = [] ∧ ¬r'.2.1 = [45] ∧
        (∀ b ∈ r'.2.1, ¬b = 0) ∧ r'.2.1.length ≤ 63 :=
      fun r' hr' => hconds r' (List.mem_cons_of_mem _ hr')
    rw [List.map_cons, List.nodup_cons] at hnd
    obtain ⟨hhead, hnd2⟩ := hnd
    have hnotdone2 : ∀ r' ∈ rest,
        ¬(r'.1, r'.2.1) ∈ (r.1, r.2.1) :: done := by
      intro r' hr' hmem
      rcases List.mem_cons.mp hmem with h | h
      · exact hhead (h ▸ List.mem_map_of_mem _ hr')
      · exact hnotdone r' (List.mem_cons_of_mem _ hr') h
    have hih := ih ((r.1, r.2.1) :: done) R.state hrep2 hjinv2 hfinv2 hconds2
      hnotdone2 hnd2
    refine ⟨?_, ?_, ?_⟩
    · show (replayAll cb io g rest R.state).1.jobs.length =
        s.jobs.length + (r :: rest).length
      rw [hih.1, hlen, List.length_cons]
      omega
    · intro e he
      have he' : e ∈ (replayAll cb io g rest R.state).1.jobs := he
      exact hih.2.1 e he'
    · show R.events ++ (replayAll cb io g rest R.state).2 = []
      rw [hRev, hih.2.2]
      rfl

/-- C8.  While the broker replays the persistent queue
(`GEARMAN_SERVER_QUEUE_REPLAY` set), every `gearman_server_job_add` call
that creates a job (server_job.c:133-140) stores it with the QUEUED flag
already set and invokes neither `queue_add` nor `queue_flush`; consequently
replaying `K` distinct well-formed persisted records from an empty broker
produces exactly `K` in-memory jobs, all QUEUED, with zero adapter calls. -/
theorem replay_no_repersist :
    (∀ (s : Server) (fname uniq dataArg : List Nat) (p : Priority)
       (hc : Bool) (cb : QueueCallbacks) (io : Nat → GRet) (g : Nat)
       (jid : Nat),
       s.replay = true →
       jobAddLookup (serverFunctionGet s fname) fname uniq dataArg = none →
       (serverJobAdd s fname uniq dataArg p hc cb io g).job = some jid →
       alookup jid
           (serverJobAdd s fname uniq dataArg p hc cb io g).state.jobs =
         some { freshJob (serverFunctionGet s fname) fname uniq dataArg p
             (jobAddKey uniq dataArg g) with queuedFlag := true } ∧
       (serverJobAdd s fname uniq dataArg p hc cb io g).events = []) ∧
    (∀ (cb : QueueCallbacks) (io : Nat → GRet) (g : Nat)
       (recs : List (List Nat × List Nat × List Nat × Priority)),
       (∀ r ∈ recs, ¬r.2.1 = [] ∧ ¬r.2.1 = [45] ∧ (∀ b ∈ r.2.1, ¬b = 0) ∧
         r.2.1.length ≤ 63) →
       (recs.map (fun r => (r.1, r.2.1))).Nodup →
       (replayAll cb io g recs
           { emptyServer with replay := true }).1.jobs.length =
         recs.length ∧
       (∀ e ∈ (replayAll cb io g recs
           { emptyServer with replay := true }).1.jobs,
         e.2.queuedFlag = true) ∧
       (replayAll cb io g recs { emptyServer with replay := true }).2 =
         []) := by
  constructor
  · intro s fname uniq dataArg p hc cb io g jid hrep hlk hjob
    obtain ⟨hjid, hret, hjobs, huh, hjh, hkeys, hev⟩ :=
      job_add_created s fname uniq dataArg p hc cb io g jid hlk hjob
    constructor
    · rw [hjobs, hrep, Bool.true_or, alookup, if_pos rfl]
    · rw [hev, if_pos hrep]
  · intro cb io g recs hconds hnd
    have h := replayAll_spec cb io g recs []
      { emptyServer with replay := true } rfl
      (by
        intro e he
        rw [show ({ emptyServer with replay := true } : Server).jobs =
          ([] : List (Nat × SJob)) from rfl] at he
        exact absurd he (List.not_mem_nil e))
      (by
        intro x hx
        rw [show ({ emptyServer with replay := true } : Server).functions =
          ([] : List (List Nat × SFn)) from rfl] at hx
        exact absurd hx (List.not_mem_nil x))
      hconds
      (fun r _ hmem => absurd hmem (List.not_mem_nil _))
      hnd
    have h1 := h.1
    rw [show ({ emptyServer with replay := true } : Server).jobs =
      ([] : List (Nat × SJob)) from rfl] at h1
    simp only [List.length_nil, Nat.zero_add] at h1
    exact ⟨h1, h.2.1, h.2.2⟩

/-- Witness for C8: one replay-mode submission of unique `[117]` on function
`[102]` lands QUEUED with no adapter call, and replaying two distinct
records yields exactly two QUEUED jobs with an empty adapter log. -/
theorem replay_no_repersist_witness :
    (alookup 0 (serverJobAdd { emptyServer with replay := true } [102] [117]
        [] Priority.normal false noCb okIo 0).state.jobs =
      some { freshJob (serverFunctionGet { emptyServer with replay := true }
            [102]) [102] [117] [] Priority.normal (jobAddKey [117] [] 0) with
          queuedFlag := true } ∧
     (serverJobAdd { emptyServer with replay := true } [102] [117] []
        Priority.normal false noCb okIo 0).events = []) ∧
    ((replayAll noCb okIo 0
        [([102], [117], [], Priority.normal),
         ([102], [118], [], Priority.high)]
        { emptyServer with replay := true }).1.jobs.length = 2 ∧
     (∀ e ∈ (replayAll noCb okIo 0
        [([102], [117], [], Priority.normal),
         ([102], [118], [], Priority.high)]
        { emptyServer with replay := true }).1.jobs,
       e.2.queuedFlag = true) ∧
     (replayAll noCb okIo 0
        [([102], [117], [], Priority.normal),
         ([102], [118], [], Priority.high)]
        { emptyServer with replay := true }).2 = []) :=
  ⟨replay_no_repersist.1 { emptyServer with replay := true } [102] [117] []
     Priority.normal false noCb okIo 0 0 rfl rfl (by decide),
   replay_no_repersist.2 noCb okIo 0
     [([102], [117], [], Priority.normal), ([102], [118], [], Priority.high)]
     (by decide) (by decide)⟩

/-- When the capability walk of `gearman_server_job_take` stops at a busy
function whose priority scan yields head job `h`, and `h` is live without
the IGNORE flag, the take returns exactly `h` and the state in which `h` was
popped off the head of its priority list (`job_count` down), assigned the
taking connection as worker, and `job_running` bumped
(server_job.c:313-354). -/
theorem serverJobTake_head (s : Server) (cid : Nat) (con : SCon)
    (n : List Nat) (f : SFn) (p : Priority) (h : Nat) (j : SJob)
    (hcon : alookup cid s.cons = some con)
    (hbusy : conFirstBusyFn s con.workerFns = some (n, f))
    (hfj : fnFirstJob f = some (p, h))
    (hj : alookup h s.jobs = some j)
    (hig : j.ignore = false) :
    serverJobTake s cid =
      (some h,
       updateFn (updateJob (updateFn s j.fn (fun g =>
           let g1 := g.setPlist p (g.plist p).tail
           { g1 with jobCount := g1.jobCount - 1 })) h
         (fun jj => { jj with worker := some cid })) j.fn
         (fun g => { g with jobRunning := g.jobRunning + 1 })) := by
  rw [serverJobTake]
  simp only [hcon, hbusy, hfj]
  split
  · rename_i hj0
    rw [hj0] at hj
    exact absurd hj (by simp)
  · rename_i j' hj'
    have hjj : j = j' := by
      injection hj.symm.trans hj'
    subst hjj
    rw [if_neg (by simp [hig] : ¬j.ignore = true)]

/-- The ready connection of the C7 scenario: not sleeping, capable of
function `[102]`. -/
def c7Con : SCon :=
  { sleeping := false, noopQueued := false, noops := 0,
    workerFns := [[102]] }

/-- The C7 starting broker: empty but for connection 0. -/
def c7State : Server := { emptyServer with cons := [(0, c7Con)] }

/-- The broker after submitting to `[102]`, in this order: unique `[49]` at
LOW, unique `[50]` at NORMAL, unique `[51]` at HIGH (job ids 0, 1, 2). -/
def c7After : Server :=
  (serverJobAdd
    ((serverJobAdd
      ((serverJobAdd c7State [102] [49] [] Priority.low true noCb okIo
        0).state) [102] [50] [] Priority.normal true noCb okIo 0).state)
    [102] [51] [] Priority.high true noCb okIo 0).state

/-- The broker after the first grab of the C7 scenario: job 2 (HIGH) popped
and running on connection 0. -/
def c7Take1 : Server :=
  { replay := false, jobHandleCount := 3, nextJobId := 3,
    functions := [([102],
      { maxQueueSize := 0, jobTotal := 3, jobRunning := 1, jobCount := 2,
        listHigh := [], listNorm := [1], listLow := [0], workerCons := [] })],
    jobs := [
      (2, { fn := [102], priority := Priority.high,
            uniqueKey := serverJobHash [51], unique := [51], data := [],
            handle := 2, worker := some 0, queuedFlag := false,
            ignore := false, numerator := 0, denominator := 0 }),
      (1, { fn := [102], priority := Priority.normal,
            uniqueKey := serverJobHash [50], unique := [50], data := [],
            handle := 1, worker := none, queuedFlag := false,
            ignore := false, numerator := 0, denominator := 0 }),
      (0, { fn := [102], priority := Priority.low,
            uniqueKey := serverJobHash [49], unique := [49], data := [],
            handle := 0, worker := none, queuedFlag := false,
            ignore := false, numerator := 0, denominator := 0 })],
    uniqueHash := [2, 1, 0], jobHash := [2, 1, 0], cons := [(0, c7Con)] }

/-- C7.  Dispatch order of `gearman_server_job_take`: the walk stops at the
first capable function with `job_count > 0`, scans HIGH before NORMAL before
LOW (the `fnFirstJob` scan), and pops and returns the head of the first
non-empty list; `gearman_server_job_queue` appends at the tail of the
priority list, so same-function jobs go out in strict priority order and
FIFO within a priority.  In particular, submitting LOW, NORMAL, HIGH in
that order and grabbing twice yields the HIGH job then the NORMAL job. -/
theorem job_take_dispatch_order :
    (∀ (s : Server) (cid : Nat) (con : SCon) (n : List Nat) (f : SFn)
       (p : Priority) (h : Nat) (j : SJob),
       alookup cid s.cons = some con →
       conFirstBusyFn s con.workerFns = some (n, f) →
       fnFirstJob f = some (p, h) →
       alookup h s.jobs = some j →
       j.ignore = false →
       serverJobTake s cid =
         (some h,
          updateFn (updateJob (updateFn s j.fn (fun g =>
              let g1 := g.setPlist p (g.plist p).tail
              { g1 with jobCount := g1.jobCount - 1 })) h
            (fun jj => { jj with worker := some cid })) j.fn
            (fun g => { g with jobRunning := g.jobRunning + 1 }))) ∧
    (∀ (f : SFn) (p : Priority) (i : Nat),
       (fnEnqueue f p i).plist p = f.plist p ++ [i]) ∧
    ((alookup 0 c7After.jobs).map SJob.priority = some Priority.low ∧
     (alookup 1 c7After.jobs).map SJob.priority = some Priority.normal ∧
     (alookup 2 c7After.jobs).map SJob.priority = some Priority.high ∧
     serverJobTake c7After 0 = (some 2, c7Take1) ∧
     (serverJobTake c7Take1 0).1 = some 1) := by
  refine ⟨serverJobTake_head, fnEnqueue_plist_self, ?_, ?_, ?_, ?_, ?_⟩
  · rfl
  · rfl
  · rfl
  · exact (serverJobTake_head c7After 0 _ _ _ _ _ _ rfl rfl rfl rfl
      rfl).trans rfl
  · rw [serverJobTake_head c7Take1 0 c7Con [102] _ Priority.normal 1 _ rfl
      rfl rfl rfl rfl]

/-- Witness for C7: at the post-first-grab broker `c7Take1`, the second grab
returns the NORMAL job 1 and moves it to running on connection 0. -/
theorem job_take_dispatch_order_witness :
    serverJobTake c7Take1 0 =
      (some 1, updateFn (updateJob (updateFn c7Take1 [102] (fun g =>
          let g1 := g.setPlist Priority.normal (g.plist Priority.normal).tail
          { g1 with jobCount := g1.jobCount - 1 })) 1
        (fun jj => { jj with worker := some 0 })) [102]
        (fun g => { g with jobRunning := g.jobRunning + 1 })) :=
  job_take_dispatch_order.1 c7Take1 0 c7Con [102] _ Priority.normal 1 _ rfl
    rfl rfl rfl rfl

/-- All three priority lists of a function, concatenated. -/
def SFn.alllist (f : SFn) : List Nat := f.listHigh ++ f.listNorm ++ f.listLow

/-- Total number of occurrences of job id `i` across the priority lists of a
function list. -/
def fcount (i : Nat) : List (List Nat × SFn) → Nat
  | [] => 0
  | x :: t => x.2.alllist.count i + fcount i t

/-- Number of times job id `i` sits on a priority list of the broker. -/
def queuedCount (s : Server) (i : Nat) : Nat := fcount i s.functions

/-- The C3 trichotomy: every live job is on exactly one priority-list slot
when it is unassigned and not IGNOREd (queued), and on none at all when a
worker holds it (running) or it is logically deleted (IGNORE). -/
def JobStateInv (s : Server) : Prop :=
  ∀ e ∈ s.jobs, queuedCount s e.1 =
    (if e.2.worker = none ∧ e.2.ignore = false then 1 else 0)

/-- Structural well-formedness the C server maintains by construction: job
ids and function names are unique, job ids are below the id counter, each
job's function pointer names an existing function record, and every id on a
priority list is a live job of that function and that priority. -/
def WFS (s : Server) : Prop :=
  (s.jobs.map Prod.fst).Nodup ∧
  (s.functions.map Prod.fst).Nodup ∧
  (∀ e ∈ s.jobs, e.1 < s.nextJobId ∧ e.2.fn ∈ s.functions.map Prod.fst) ∧
  (∀ x ∈ s.functions, ∀ p : Priority, ∀ i ∈ x.2.plist p,
    ∃ j, alookup i s.jobs = some j ∧ j.fn = x.1 ∧ j.priority = p)

/-- The server_job.c operations C3 quantifies over. -/
inductive Op
  | add (fname uniq dataArg : List Nat) (p : Priority) (hc : Bool)
      (cb : QueueCallbacks) (g : Nat)
  | queue (i : Nat)
  | peek (cid : Nat)
  | take (cid : Nat)
  | free (i : Nat)

/-- One operation applied to the broker state. -/
def stepOp (io : Nat → GRet) (s : Server) : Op → Server
  | .add fname uniq dataArg p hc cb g =>
      (serverJobAdd s fname uniq dataArg p hc cb io g).state
  | .queue i => (serverJobQueue s i io).2
  | .peek cid => (serverJobPeek s cid).2
  | .take cid => (serverJobTake s cid).2
  | .free i => serverJobFree s i

/-- Usage preconditions of the C call sites: packet enqueues succeed for the
operations that wake workers (failures abort the operation midway);
`gearman_server_job_queue` is only called on a live, non-IGNOREd job that is
not already sitting on a list (a fresh submission or an assigned job being
returned); `gearman_server_job_free` is only called on a job that is off the
lists (taken, completed or rolled back). -/
def opOK (io : Nat → GRet) (s : Server) : Op → Prop
  | .add _ _ _ _ _ _ _ => ∀ n, io n = GRet.success
  | .queue i => (∀ n, io n = GRet.success) ∧
      (∃ j, alookup i s.jobs = some j ∧ j.ignore = false) ∧
      queuedCount s i = 0
  | .peek _ => True
  | .take _ => True
  | .free i => queuedCount s i = 0

theorem mem_alllist_of_plist (f : SFn) (p : Priority) (i : Nat)
    (h : i ∈ f.plist p) : i ∈ f.alllist := by
  cases p
  · exact List.mem_append_left _ (List.mem_append_left _ h)
  · exact List.mem_append_left _ (List.mem_append_right _ h)
  · exact List.mem_append_right _ h

theorem plist_of_mem_alllist (f : SFn) (i : Nat) (h : i ∈ f.alllist) :
    ∃ p : Priority, i ∈ f.plist p := by
  rcases List.mem_append.mp h with h | h
  · rcases List.mem_append.mp h with h | h
    · exact ⟨.high, h⟩
    · exact ⟨.normal, h⟩
  · exact ⟨.low, h⟩

theorem count_alllist (f : SFn) (x : Nat) :
    f.alllist.count x =
      f.listHigh.count x + f.listNorm.count x + f.listLow.count x := by
  simp [SFn.alllist, List.count_append]
  omega

theorem alllist_setPlist_count (f : SFn) (p : Priority) (l : List Nat)
    (x : Nat) :
    (f.setPlist p l).alllist.count x + (f.plist p).count x =
      f.alllist.count x + l.count x := by
  cases p <;>
    simp [SFn.setPlist, SFn.plist, SFn.alllist, List.count_append] <;> omega

theorem count_singleton_ite (i x : Nat) :
    List.count x [i] = if i = x then 1 else 0 := by
  by_cases hix : i = x <;> simp [List.count_cons, hix]

theorem count_pos_of_mem {x : Nat} {l : List Nat} (h : x ∈ l) :
    0 < l.count x :=
  Nat.pos_of_ne_zero fun hc => (List.count_eq_zero.mp hc) h

theorem fnEnqueue_alllist_count (f : SFn) (p : Priority) (i x : Nat) :
    (fnEnqueue f p i).alllist.count x =
      f.alllist.count x + (if i = x then 1 else 0) := by
  have h := alllist_setPlist_count f p (f.plist p ++ [i]) x
  rw [List.count_append, count_singleton_ite] at h
  have h2 : (fnEnqueue f p i).alllist =
      (f.setPlist p (f.plist p ++ [i])).alllist := rfl
  rw [h2]
  omega

theorem pop_alllist_count (f : SFn) (p : Priority) (h : Nat) (t : List Nat)
    (hl : f.plist p = h :: t) (x : Nat) :
    (f.setPlist p t).alllist.count x + (if h = x then 1 else 0) =
      f.alllist.count x := by
  have hh := alllist_setPlist_count f p t x
  rw [hl] at hh
  have hc : (h :: t).count x = t.count x + (if h = x then 1 else 0) := by
    by_cases hhx : h = x <;> simp [List.count_cons, hhx]
  omega

theorem plist_count_le_alllist (f : SFn) (p : Priority) (x : Nat) :
    (f.plist p).count x ≤ f.alllist.count x := by
  cases p <;> simp only [SFn.plist] <;> rw [count_alllist] <;> omega

theorem two_plist_count_le (f : SFn) (p q : Priority) (hpq : p ≠ q)
    (x : Nat) :
    (f.plist p).count x + (f.plist q).count x ≤ f.alllist.count x := by
  cases p <;> cases q <;> first
    | exact absurd rfl hpq
    | (simp only [SFn.plist]; rw [count_alllist]; omega)

theorem fcount_cons (i : Nat) (x : List Nat × SFn)
    (l : List (List Nat × SFn)) :
    fcount i (x :: l) = x.2.alllist.count i + fcount i l := rfl

theorem fcount_aupdate (i : Nat) (n : List Nat) (g : SFn → SFn)
    {l : List (List Nat × SFn)} {f : SFn} (hf : alookup n l = some f) :
    fcount i (aupdate n g l) + f.alllist.count i =
      fcount i l + (g f).alllist.count i := by
  induction l with
  | nil => simp [alookup] at hf
  | cons x t ih =>
    obtain ⟨k, v⟩ := x
    by_cases hk : k = n
    · rw [alookup, if_pos hk] at hf
      injection hf with hf
      subst hf
      rw [aupdate, if_pos hk]
      show (g v).alllist.count i + fcount i t + v.alllist.count i =
        v.alllist.count i + fcount i t + (g v).alllist.count i
      omega
    · rw [alookup, if_neg hk] at hf
      rw [aupdate, if_neg hk]
      show v.alllist.count i + fcount i (aupdate n g t) +
          f.alllist.count i =
        v.alllist.count i + fcount i t + (g f).alllist.count i
      have := ih hf
      omega

theorem fcount_aupdate_pres (i : Nat) (n : List Nat) (g : SFn → SFn)
    (l : List (List Nat × SFn)) (hg : ∀ v, (g v).alllist = v.alllist) :
    fcount i (aupdate n g l) = fcount i l := by
  induction l with
  | nil => rfl
  | cons x t ih =>
    obtain ⟨k, v⟩ := x
    by_cases hk : k = n
    · rw [aupdate, if_pos hk]
      show (g v).alllist.count i + fcount i t =
        v.alllist.count i + fcount i t
      rw [hg]
    · rw [aupdate, if_neg hk]
      show v.alllist.count i + fcount i (aupdate n g t) =
        v.alllist.count i + fcount i t
      rw [ih]

theorem fcount_pos_of_entry {i : Nat} {l : List (List Nat × SFn)}
    {x : List Nat × SFn} (hx : x ∈ l) (hm : i ∈ x.2.alllist) :
    0 < fcount i l := by
  induction l with
  | nil => exact absurd hx (List.not_mem_nil x)
  | cons y t ih =>
    rcases List.mem_cons.mp hx with h | h
    · subst h
      have hc : x.2.alllist.count i ≠ 0 :=
        fun hc => (List.count_eq_zero.mp hc) hm
      show 0 < x.2.alllist.count i + fcount i t
      omega
    · have := ih h
      show 0 < y.2.alllist.count i + fcount i t
      omega

theorem count_le_fcount {i : Nat} {l : List (List Nat × SFn)}
    {x : List Nat × SFn} (hx : x ∈ l) : x.2.alllist.count i ≤ fcount i l := by
  induction l with
  | nil => exact absurd hx (List.not_mem_nil x)
  | cons y t ih =>
    rcases List.mem_cons.mp hx with h | h
    · subst h
      show x.2.alllist.count i ≤ x.2.alllist.count i + fcount i t
      omega
    · have := ih h
      show x.2.alllist.count i ≤ y.2.alllist.count i + fcount i t
      omega

theorem fcount_eq_zero (i : Nat) (l : List (List Nat × SFn))
    (h : ∀ x ∈ l, i ∉ x.2.alllist) : fcount i l = 0 := by
  induction l with
  | nil => rfl
  | cons y t ih =>
    have h1 : y.2.alllist.count i = 0 :=
      List.count_eq_zero.mpr (h y (List.mem_cons_self _ _))
    have h2 := ih (fun x hx => h x (List.mem_cons_of_mem _ hx))
    show y.2.alllist.count i + fcount i t = 0
    omega

theorem mem_aupdate_nodup {κ : Type} [DecidableEq κ] {α : Type} {i : κ}
    {g : α → α} {l : List (κ × α)} {x : κ × α}
    (hnd : (l.map Prod.fst).Nodup) (hx : x ∈ aupdate i g l) :
    (x ∈ l ∧ x.1 ≠ i) ∨ ∃ v, alookup i l = some v ∧ x = (i, g v) := by
  induction l with
  | nil => simp [aupdate] at hx
  | cons y t ih =>
    obtain ⟨k, v⟩ := y
    rw [List.map_cons, List.nodup_cons] at hnd
    by_cases hk : k = i
    · subst hk
      rw [aupdate, if_pos rfl] at hx
      rcases List.mem_cons.mp hx with h | h
      · exact Or.inr ⟨v, by rw [alookup, if_pos rfl], h⟩
      · left
        refine ⟨List.mem_cons_of_mem _ h, fun hxi => ?_⟩
        have hmem2 : x.1 ∈ t.map Prod.fst := List.mem_map_of_mem Prod.fst h
        rw [hxi] at hmem2
        exact hnd.1 hmem2
    · rw [aupdate, if_neg hk] at hx
      rcases List.mem_cons.mp hx with h | h
      · subst h
        exact Or.inl ⟨List.mem_cons_self _ _, fun hh => hk hh⟩
      · rcases ih hnd.2 h with ⟨hm, hne⟩ | ⟨w, hw, hxw⟩
        · exact Or.inl ⟨List.mem_cons_of_mem _ hm, hne⟩
        · exact Or.inr ⟨w, by rw [alookup, if_neg hk]; exact hw, hxw⟩

theorem mem_of_mem_aerase {κ : Type} [DecidableEq κ] {α : Type} {i : κ}
    {l : List (κ × α)} {x : κ × α} (h : x ∈ aerase i l) : x ∈ l := by
  induction l with
  | nil => exact absurd h (List.not_mem_nil x)
  | cons y t ih =>
    obtain ⟨k, v⟩ := y
    by_cases hk : k = i
    · rw [aerase, if_pos hk] at h
      exact List.mem_cons_of_mem _ h
    · rw [aerase, if_neg hk] at h
      rcases List.mem_cons.mp h with h | h
      · exact h ▸ List.mem_cons_self _ _
      · exact List.mem_cons_of_mem _ (ih h)

theorem alllist_eq_of_plist {f' f : SFn}
    (hg : ∀ p : Priority, f'.plist p = f.plist p) :
    f'.alllist = f.alllist := by
  show f'.listHigh ++ f'.listNorm ++ f'.listLow = _
  rw [show f'.listHigh = f.listHigh from hg .high,
    show f'.listNorm = f.listNorm from hg .normal,
    show f'.listLow = f.listLow from hg .low]
  rfl

theorem aupdate_plist_entries (n : List Nat) (g : SFn → SFn)
    (l : List (List Nat × SFn)) (hg : ∀ v (p : Priority),
      (g v).plist p = v.plist p) :
    ∀ y ∈ aupdate n g l, ∃ y0, y0 ∈ l ∧ y.1 = y0.1 ∧
      ∀ p : Priority, y.2.plist p = y0.2.plist p := by
  induction l with
  | nil => intro y hy; simp [aupdate] at hy
  | cons z t ih =>
    obtain ⟨k, v⟩ := z
    intro y hy
    by_cases hk : k = n
    · rw [aupdate, if_pos hk] at hy
      rcases List.mem_cons.mp hy with h | h
      · exact ⟨(k, v), List.mem_cons_self _ _, by rw [h],
          fun p => by rw [h]; exact hg v p⟩
      · exact ⟨y, List.mem_cons_of_mem _ h, rfl, fun _ => rfl⟩
    · rw [aupdate, if_neg hk] at hy
      rcases List.mem_cons.mp hy with h | h
      · exact ⟨(k, v), List.mem_cons_self _ _, by rw [h], fun p => by rw [h]⟩
      · obtain ⟨y0, hy0, hk0, hp0⟩ := ih y h
        exact ⟨y0, List.mem_cons_of_mem _ hy0, hk0, hp0⟩

/-- A job sitting on some function's priority list is, under the trichotomy
invariant, unassigned and not IGNOREd. -/
theorem on_list_worker_none (s : Server)
    (hinv : JobStateInv s) {x : List Nat × SFn} (hx : x ∈ s.functions)
    {p : Priority} {h : Nat} (hp : h ∈ x.2.plist p) {j : SJob}
    (hj : alookup h s.jobs = some j) :
    j.worker = none ∧ j.ignore = false := by
  have hpos : 0 < queuedCount s h :=
    fcount_pos_of_entry hx (mem_alllist_of_plist _ p h hp)
  have h2 : queuedCount s h =
      (if j.worker = none ∧ j.ignore = false then 1 else 0) :=
    hinv (h, j) (alookup_mem_pair hj)
  by_cases hcond : j.worker = none ∧ j.ignore = false
  · exact hcond
  · rw [if_neg hcond] at h2
    omega

theorem conFirstBusyFn_some (s : Server) :
    ∀ (ws : List (List Nat)) (nf : List Nat × SFn),
      conFirstBusyFn s ws = some nf → alookup nf.1 s.functions = some nf.2 := by
  intro ws
  induction ws with
  | nil => intro nf h; exact absurd h (by simp [conFirstBusyFn])
  | cons n rest ih =>
    intro nf h
    rw [conFirstBusyFn] at h
    split at h
    · exact ih nf h
    rename_i f hf
    split at h
    · injection h with h
      rw [← h]
      exact hf
    · exact ih nf h

theorem fnFirstJob_head (f : SFn) (p : Priority) (h : Nat)
    (hfj : fnFirstJob f = some (p, h)) : ∃ t, f.plist p = h :: t := by
  rw [fnFirstJob] at hfj
  split at hfj
  · rename_i x rest hlist
    injection hfj with hfj
    injection hfj with hp hh
    subst hp
    subst hh
    exact ⟨rest, hlist⟩
  · split at hfj
    · rename_i x rest hlist
      injection hfj with hfj
      injection hfj with hp hh
      subst hp
      subst hh
      exact ⟨rest, hlist⟩
    · split at hfj
      · rename_i x rest hlist
        injection hfj with hfj
        injection hfj with hp hh
        subst hp
        subst hh
        exact ⟨rest, hlist⟩
      · exact absurd hfj (by simp)

theorem peekFirstJob_some (s : Server) :
    ∀ (ws : List (List Nat)) (p : Priority) (h : Nat),
      peekFirstJob s ws = some (p, h) →
      ∃ n f, alookup n s.functions = some f ∧
        fnFirstJob f = some (p, h) := by
  intro ws
  induction ws with
  | nil => intro p h hpk; exact absurd hpk (by simp [peekFirstJob])
  | cons n rest ih =>
    intro p h hpk
    rw [peekFirstJob] at hpk
    split at hpk
    · exact ih p h hpk
    rename_i f hf
    split at hpk
    · split at hpk
      · rename_i ph hfj
        injection hpk with hpk
        exact ⟨n, f, hf, by rw [hfj, hpk]⟩
      · exact ih p h hpk
    · exact ih p h hpk

/-- Under the invariant, `gearman_server_job_peek` never meets an IGNOREd
head (an IGNOREd job is off the lists), so it never mutates the broker. -/
theorem peek_state_eq (s : Server) (cid : Nat)
    (hinv : JobStateInv s) : (serverJobPeek s cid).2 = s := by
  rw [serverJobPeek]
  split
  · rfl
  rename_i con hcon
  split
  · rfl
  rename_i p h hpk
  split
  · rfl
  rename_i j hjh
  split
  · rename_i hig
    exfalso
    obtain ⟨n, f, hnf, hfj⟩ := peekFirstJob_some s con.workerFns p h hpk
    obtain ⟨t, hpl⟩ := fnFirstJob_head f p h hfj
    have hmem : h ∈ f.plist p := by
      rw [hpl]
      exact List.mem_cons_self _ _
    have hflags := on_list_worker_none s hinv (alookup_mem_pair hnf) hmem hjh
    rw [hflags.2] at hig
    exact Bool.false_ne_true hig
  · rfl

/-- `gearman_server_job_free` on a job that is off the priority lists keeps
the well-formedness and the trichotomy invariant. -/
theorem free_preserves (s : Server) (i : Nat) (hwf : WFS s)
    (hinv : JobStateInv s) (hcnt : queuedCount s i = 0) :
    WFS (serverJobFree s i) ∧ JobStateInv (serverJobFree s i) := by
  obtain ⟨hnd, hfnd, hbound, hcoh⟩ := hwf
  cases hj : alookup i s.jobs with
  | none =>
    have hid : serverJobFree s i = s := by rw [serverJobFree, hj]
    rw [hid]
    exact ⟨⟨hnd, hfnd, hbound, hcoh⟩, hinv⟩
  | some j =>
    have hfuns : (serverJobFree s i).functions =
        aupdate j.fn (fun f => { f with jobTotal := f.jobTotal - 1 })
          (if j.worker.isSome then
            aupdate j.fn (fun f => { f with jobRunning := f.jobRunning - 1 })
              s.functions
          else s.functions) := by
      cases hw : j.worker.isSome <;> simp [serverJobFree, hj, hw, updateFn]
    have hjobs : (serverJobFree s i).jobs = aerase i s.jobs := by
      cases hw : j.worker.isSome <;> simp [serverJobFree, hj, hw, updateFn]
    have hnext : (serverJobFree s i).nextJobId = s.nextJobId := by
      cases hw : j.worker.isSome <;> simp [serverJobFree, hj, hw, updateFn]
    have hfc : ∀ x, fcount x (serverJobFree s i).functions =
        fcount x s.functions := by
      intro x
      rw [hfuns, fcount_aupdate_pres x j.fn
        (fun f => { f with jobTotal := f.jobTotal - 1 }) _ (fun v => rfl)]
      by_cases hw : j.worker.isSome
      · rw [if_pos hw, fcount_aupdate_pres x j.fn
          (fun f => { f with jobRunning := f.jobRunning - 1 }) _
          (fun v => rfl)]
      · rw [if_neg hw]
    have hkeys : (serverJobFree s i).functions.map Prod.fst =
        s.functions.map Prod.fst := by
      rw [hfuns, aupdate_keys]
      by_cases hw : j.worker.isSome
      · rw [if_pos hw, aupdate_keys]
      · rw [if_neg hw]
    have hentries : ∀ y ∈ (serverJobFree s i).functions, ∃ y0,
        y0 ∈ s.functions ∧ y.1 = y0.1 ∧
        ∀ p : Priority, y.2.plist p = y0.2.plist p := by
      rw [hfuns]
      intro y hy
      obtain ⟨y1, hy1, hk1, hp1⟩ := aupdate_plist_entries _ _ _
        (fun v p => by cases p <;> rfl) y hy
      by_cases hw : j.worker.isSome
      · rw [if_pos hw] at hy1
        obtain ⟨y0, hy0, hk0, hp0⟩ := aupdate_plist_entries _ _ _
          (fun v p => by cases p <;> rfl) y1 hy1
        exact ⟨y0, hy0, hk1.trans hk0, fun p => (hp1 p).trans (hp0 p)⟩
      · rw [if_neg hw] at hy1
        exact ⟨y1, hy1, hk1, hp1⟩
    refine ⟨⟨?_, ?_, ?_, ?_⟩, ?_⟩
    · rw [hjobs, aerase_keys]
      exact hnd.erase i
    · rw [hkeys]
      exact hfnd
    · intro e he
      rw [hjobs] at he
      obtain ⟨hlt, hfn⟩ := hbound e (mem_of_mem_aerase he)
      rw [hnext, hkeys]
      exact ⟨hlt, hfn⟩
    · intro x hx p id hid
      obtain ⟨y0, hy0, hk0, hp0⟩ := hentries x hx
      rw [hp0 p] at hid
      obtain ⟨j', hj', hjfn, hjp⟩ := hcoh y0 hy0 p id hid
      have hne : id ≠ i := by
        intro hh
        subst hh
        have hpos := fcount_pos_of_entry hy0 (mem_alllist_of_plist _ p id hid)
        have hz : fcount id s.functions = 0 := hcnt
        omega
      refine ⟨j', ?_, ?_, hjp⟩
      · rw [hjobs, alookup_aerase_ne _ _ _ hne]
        exact hj'
      · rw [hk0]
        exact hjfn
    · intro e he
      rw [hjobs] at he
      have he' := mem_of_mem_aerase he
      show queuedCount (serverJobFree s i) e.1 = _
      rw [queuedCount, hfc e.1]
      exact hinv e he'

/-- `gearman_server_job_queue` with succeeding packet enqueues, called on a
live non-IGNOREd job that is off the lists, re-establishes well-formedness
and the trichotomy: the job lands on exactly one list slot with its worker
cleared, and no other job moves. -/
theorem queue_preserves (s : Server) (i : Nat) (io : Nat → GRet) (j : SJob)
    (hio : ∀ n, io n = GRet.success)
    (hj : alookup i s.jobs = some j) (hig : j.ignore = false)
    (hcnt : queuedCount s i = 0)
    (hinv2 : ∀ e ∈ s.jobs, e.1 ≠ i →
      queuedCount s e.1 =
        (if e.2.worker = none ∧ e.2.ignore = false then 1 else 0))
    (hwf : WFS s) :
    WFS (serverJobQueue s i io).2 ∧ JobStateInv (serverJobQueue s i io).2 := by
  obtain ⟨hnd, hfnd, hbound, hcoh⟩ := hwf
  have hjobs : (serverJobQueue s i io).2.jobs =
      aupdate i (fun jj =>
        { jj with worker := none, numerator := 0, denominator := 0 })
        s.jobs := by
    rw [serverJobQueue_success_eq s i io j hj hio]
    simp only [updateFn]
    rw [noopLoop_jobs, queuedMid_jobs]
  have hfuns : (serverJobQueue s i io).2.functions =
      aupdate j.fn (fun f => fnEnqueue f j.priority i)
        (if j.worker.isSome then
          aupdate j.fn (fun f => { f with jobRunning := f.jobRunning - 1 })
            s.functions
        else s.functions) := by
    rw [serverJobQueue_success_eq s i io j hj hio]
    simp only [updateFn]
    rw [noopLoop_functions, queuedMid_functions]
  have hnext : (serverJobQueue s i io).2.nextJobId = s.nextJobId := by
    rw [serverJobQueue_success_eq s i io j hj hio]
    simp only [updateFn]
    obtain ⟨cs, hcs⟩ := noopLoop_state
      (((alookup j.fn (queuedMid s i j).functions).map SFn.workerCons).getD
        []) io (queuedMid s i j) 0
    rw [hcs]
    exact (queuedMid_misc s i j).2.2.2.1
  have hmidkeys : (if j.worker.isSome then
      aupdate j.fn (fun f => { f with jobRunning := f.jobRunning - 1 })
        s.functions else s.functions).map Prod.fst =
      s.functions.map Prod.fst := by
    by_cases hw : j.worker.isSome
    · rw [if_pos hw, aupdate_keys]
    · rw [if_neg hw]
  have hmidfc : ∀ x, fcount x (if j.worker.isSome then
      aupdate j.fn (fun f => { f with jobRunning := f.jobRunning - 1 })
        s.functions else s.functions) = fcount x s.functions := by
    intro x
    by_cases hw : j.worker.isSome
    · rw [if_pos hw, fcount_aupdate_pres x j.fn
        (fun f => { f with jobRunning := f.jobRunning - 1 }) _ (fun v => rfl)]
    · rw [if_neg hw]
  have hmident : ∀ y ∈ (if j.worker.isSome then
      aupdate j.fn (fun f => { f with jobRunning := f.jobRunning - 1 })
        s.functions else s.functions), ∃ y0, y0 ∈ s.functions ∧
      y.1 = y0.1 ∧ ∀ p : Priority, y.2.plist p = y0.2.plist p := by
    by_cases hw : j.worker.isSome
    · rw [if_pos hw]
      exact aupdate_plist_entries _ _ _ (fun v p => by cases p <;> rfl)
    · rw [if_neg hw]
      exact fun y hy => ⟨y, hy, rfl, fun _ => rfl⟩
  have hjfnmem : j.fn ∈ s.functions.map Prod.fst :=
    (hbound (i, j) (alookup_mem_pair hj)).2
  have hsome : (alookup j.fn (if j.worker.isSome then
      aupdate j.fn (fun f => { f with jobRunning := f.jobRunning - 1 })
        s.functions else s.functions)).isSome := by
    apply alookup_isSome_of_mem
    rw [hmidkeys]
    exact hjfnmem
  obtain ⟨fmid, hfmid⟩ := Option.isSome_iff_exists.mp hsome
  have hfc : ∀ x, fcount x (serverJobQueue s i io).2.functions =
      fcount x s.functions + (if i = x then 1 else 0) := by
    intro x
    rw [hfuns]
    have h1 := fcount_aupdate x j.fn (fun f => fnEnqueue f j.priority i) hfmid
    rw [fnEnqueue_alllist_count] at h1
    have h2 := hmidfc x
    omega
  refine ⟨⟨?_, ?_, ?_, ?_⟩, ?_⟩
  · rw [hjobs, aupdate_keys]
    exact hnd
  · rw [hfuns, aupdate_keys, hmidkeys]
    exact hfnd
  · intro e he
    rw [hjobs] at he
    rw [hnext]
    rcases mem_aupdate_nodup hnd he with ⟨hmem, -⟩ | ⟨v, hv, hev⟩
    · obtain ⟨hlt, hfn⟩ := hbound e hmem
      refine ⟨hlt, ?_⟩
      rw [hfuns, aupdate_keys, hmidkeys]
      exact hfn
    · rw [hj] at hv
      injection hv with hv
      subst hv
      subst hev
      obtain ⟨hlt, hfn⟩ := hbound (i, j) (alookup_mem_pair hj)
      refine ⟨hlt, ?_⟩
      rw [hfuns, aupdate_keys, hmidkeys]
      exact hfn
  · intro x hx p' id hid
    rw [hfuns] at hx
    have hmidnd : ((if j.worker.isSome then
        aupdate j.fn (fun f => { f with jobRunning := f.jobRunning - 1 })
          s.functions else s.functions).map Prod.fst).Nodup := by
      rw [hmidkeys]
      exact hfnd
    rcases mem_aupdate_nodup hmidnd hx with ⟨hxm, -⟩ | ⟨v, hv, hxv⟩
    · obtain ⟨y0, hy0, hk0, hp0⟩ := hmident x hxm
      rw [hp0 p'] at hid
      obtain ⟨j', hj', hjfn, hjp⟩ := hcoh y0 hy0 p' id hid
      by_cases hidi : id = i
      · subst hidi
        rw [hj] at hj'
        injection hj' with hj'
        subst hj'
        refine
          ⟨{ j with worker := none, numerator := 0, denominator := 0 },
           ?_, ?_, hjp⟩
        · rw [hjobs, alookup_aupdate, if_pos rfl, hj]
          rfl
        · rw [hk0]
          exact hjfn
      · refine ⟨j', ?_, by rw [hk0]; exact hjfn, hjp⟩
        rw [hjobs, alookup_aupdate, if_neg (fun hh => hidi hh.symm)]
        exact hj'
    · rw [hfmid] at hv
      injection hv with hv
      subst hv
      subst hxv
      have hid2 : id ∈ (fnEnqueue fmid j.priority i).plist p' := hid
      obtain ⟨y0, hy0, hk0, hp0⟩ := hmident (j.fn, fmid)
        (alookup_mem_pair hfmid)
      by_cases hp2 : p' = j.priority
      · subst hp2
        rw [fnEnqueue_plist_self] at hid2
        rcases List.mem_append.mp hid2 with hmm | hmm
        · rw [hp0 j.priority] at hmm
          obtain ⟨j', hj', hjfn, hjp⟩ := hcoh y0 hy0 j.priority id hmm
          have hidne : id ≠ i := by
            intro hh
            subst hh
            have hpos := fcount_pos_of_entry hy0
              (mem_alllist_of_plist _ _ id hmm)
            have hz : fcount id s.functions = 0 := hcnt
            omega
          refine ⟨j', ?_, hjfn.trans hk0.symm, hjp⟩
          rw [hjobs, alookup_aupdate, if_neg (fun hh => hidne hh.symm)]
          exact hj'
        · have hidi : id = i := by simpa using hmm
          subst hidi
          refine
            ⟨{ j with worker := none, numerator := 0, denominator := 0 },
             ?_, rfl, rfl⟩
          rw [hjobs, alookup_aupdate, if_pos rfl, hj]
          rfl
      · rw [fnEnqueue_plist_ne fmid j.priority p' i hp2] at hid2
        rw [hp0 p'] at hid2
        obtain ⟨j', hj', hjfn, hjp⟩ := hcoh y0 hy0 p' id hid2
        have hidne : id ≠ i := by
          intro hh
          subst hh
          have hpos := fcount_pos_of_entry hy0
            (mem_alllist_of_plist _ _ id hid2)
          have hz : fcount id s.functions = 0 := hcnt
          omega
        refine ⟨j', ?_, hjfn.trans hk0.symm, hjp⟩
        rw [hjobs, alookup_aupdate, if_neg (fun hh => hidne hh.symm)]
        exact hj'
  · intro e he
    rw [hjobs] at he
    rcases mem_aupdate_nodup hnd he with ⟨hmem, hne⟩ | ⟨v, hv, hev⟩
    · have h0 : fcount e.1 s.functions =
          (if e.2.worker = none ∧ e.2.ignore = false then 1 else 0) :=
        hinv2 e hmem hne
      show queuedCount (serverJobQueue s i io).2 e.1 = _
      rw [queuedCount, hfc e.1, if_neg (fun hh => hne hh.symm)]
      omega
    · rw [hj] at hv
      injection hv with hv
      subst hv
      subst hev
      have hcond :
          (((i,
             { j with worker := none, numerator := 0, denominator := 0 }) :
            Nat × SJob)).2.worker = none ∧
          (((i,
             { j with worker := none, numerator := 0, denominator := 0 }) :
            Nat × SJob)).2.ignore = false := ⟨rfl, hig⟩
      rw [if_pos hcond]
      show queuedCount (serverJobQueue s i io).2 i = 1
      rw [queuedCount, hfc i, if_pos rfl]
      have hz : fcount i s.functions = 0 := hcnt
      omega

theorem plist_jobCount (g : SFn) (c : Nat) (p : Priority) :
    ({ g with jobCount := c } : SFn).plist p = g.plist p := by
  cases p <;> rfl

theorem plist_jobRunning (g : SFn) (c : Nat) (p : Priority) :
    ({ g with jobRunning := c } : SFn).plist p = g.plist p := by
  cases p <;> rfl

theorem setPlist_plist_self (f : SFn) (p : Priority) (l : List Nat) :
    (f.setPlist p l).plist p = l := by
  cases p <;> rfl

theorem setPlist_plist_ne (f : SFn) (p q : Priority) (l : List Nat)
    (h : q ≠ p) : (f.setPlist p l).plist q = f.plist q := by
  cases p <;> cases q <;> first | exact absurd rfl h | rfl

/-- `gearman_server_job_take` keeps well-formedness and the trichotomy: the
grabbed head job leaves its single list slot and gains a worker; under the
invariant the IGNORE reap branch is unreachable (an IGNOREd job is off the
lists). -/
theorem take_preserves (s : Server) (cid : Nat) (hwf : WFS s)
    (hinv : JobStateInv s) :
    WFS (serverJobTake s cid).2 ∧ JobStateInv (serverJobTake s cid).2 := by
  obtain ⟨hnd, hfnd, hbound, hcoh⟩ := hwf
  rw [serverJobTake]
  split
  · exact ⟨⟨hnd, hfnd, hbound, hcoh⟩, hinv⟩
  rename_i con hcon
  split
  · exact ⟨⟨hnd, hfnd, hbound, hcoh⟩, hinv⟩
  rename_i n f hbusy
  split
  · exact ⟨⟨hnd, hfnd, hbound, hcoh⟩, hinv⟩
  rename_i p h hfj
  split
  · exact ⟨⟨hnd, hfnd, hbound, hcoh⟩, hinv⟩
  rename_i j hj
  have hnf : alookup n s.functions = some f :=
    conFirstBusyFn_some s con.workerFns (n, f) hbusy
  obtain ⟨t, hpl⟩ := fnFirstJob_head f p h hfj
  have hmem : h ∈ f.plist p := by
    rw [hpl]
    exact List.mem_cons_self _ _
  have hflags := on_list_worker_none s hinv (alookup_mem_pair hnf) hmem hj
  obtain ⟨j2, hj2, hjfn0, hjp0⟩ := hcoh (n, f) (alookup_mem_pair hnf) p h hmem
  rw [hj] at hj2
  injection hj2 with hj2
  subst hj2
  have hjfn : j.fn = n := hjfn0
  rw [if_neg (by simp [hflags.2] : ¬j.ignore = true)]
  show WFS (updateFn (updateJob (updateFn s j.fn (fun g =>
      let g1 := g.setPlist p (g.plist p).tail
      { g1 with jobCount := g1.jobCount - 1 })) h
      (fun jj => { jj with worker := some cid })) j.fn
      (fun g => { g with jobRunning := g.jobRunning + 1 })) ∧
    JobStateInv (updateFn (updateJob (updateFn s j.fn (fun g =>
      let g1 := g.setPlist p (g.plist p).tail
      { g1 with jobCount := g1.jobCount - 1 })) h
      (fun jj => { jj with worker := some cid })) j.fn
      (fun g => { g with jobRunning := g.jobRunning + 1 }))
  set S3 := updateFn (updateJob (updateFn s j.fn (fun g =>
      let g1 := g.setPlist p (g.plist p).tail
      { g1 with jobCount := g1.jobCount - 1 })) h
      (fun jj => { jj with worker := some cid })) j.fn
      (fun g => { g with jobRunning := g.jobRunning + 1 }) with hS3def
  have hjobs3 : S3.jobs =
      aupdate h (fun jj => { jj with worker := some cid }) s.jobs := rfl
  have hfuns3 : S3.functions =
      aupdate j.fn (fun g => { g with jobRunning := g.jobRunning + 1 })
        (aupdate j.fn (fun g =>
          let g1 := g.setPlist p (g.plist p).tail
          { g1 with jobCount := g1.jobCount - 1 }) s.functions) := rfl
  have hnext3 : S3.nextJobId = s.nextJobId := rfl
  have hF : alookup j.fn s.functions = some f := by
    rw [hjfn]
    exact hnf
  have hpopc : ∀ x, ((fun (g : SFn) =>
      let g1 := g.setPlist p (g.plist p).tail
      { g1 with jobCount := g1.jobCount - 1 }) f).alllist.count x +
      (if h = x then 1 else 0) = f.alllist.count x := by
    intro x
    show (f.setPlist p (f.plist p).tail).alllist.count x +
      (if h = x then 1 else 0) = f.alllist.count x
    rw [hpl]
    exact pop_alllist_count f p h t hpl x
  have hfc : ∀ x, fcount x S3.functions + (if h = x then 1 else 0) =
      fcount x s.functions := by
    intro x
    rw [hfuns3, fcount_aupdate_pres x j.fn
      (fun g => { g with jobRunning := g.jobRunning + 1 }) _ (fun v => rfl)]
    have h2 := fcount_aupdate x j.fn (fun g =>
      let g1 := g.setPlist p (g.plist p).tail
      { g1 with jobCount := g1.jobCount - 1 }) hF
    have h3 := hpopc x
    omega
  have hcount1 : fcount h s.functions = 1 := by
    have h2 : queuedCount s h =
        (if j.worker = none ∧ j.ignore = false then 1 else 0) :=
      hinv (h, j) (alookup_mem_pair hj)
    rw [if_pos ⟨hflags.1, hflags.2⟩] at h2
    exact h2
  have hle2 : f.alllist.count h ≤ fcount h s.functions :=
    count_le_fcount (alookup_mem_pair hnf)
  have hnot_t : h ∉ t := by
    intro hht
    have hc0 := count_pos_of_mem hht
    have hc1 : 2 ≤ (f.plist p).count h := by
      rw [hpl, List.count_cons_self]
      omega
    have hle := plist_count_le_alllist f p h
    omega
  have hnot_other : ∀ q : Priority, q ≠ p → h ∉ f.plist q := by
    intro q hqp hhq
    have h1 := count_pos_of_mem hmem
    have h2 := count_pos_of_mem hhq
    have h3 := two_plist_count_le f p q (fun hh => hqp hh.symm) h
    omega
  refine ⟨⟨?_, ?_, ?_, ?_⟩, ?_⟩
  · rw [hjobs3, aupdate_keys]
    exact hnd
  · rw [hfuns3, aupdate_keys, aupdate_keys]
    exact hfnd
  · intro e he
    rw [hjobs3] at he
    rw [hnext3, hfuns3, aupdate_keys, aupdate_keys]
    rcases mem_aupdate_nodup hnd he with ⟨hmm, -⟩ | ⟨v, hv, hev⟩
    · exact hbound e hmm
    · rw [hj] at hv
      injection hv with hv
      subst hv
      subst hev
      exact hbound (h, j) (alookup_mem_pair hj)
  · intro x hx p' id hid
    rw [hfuns3] at hx
    have hnd2 : ((aupdate j.fn (fun g =>
        let g1 := g.setPlist p (g.plist p).tail
        { g1 with jobCount := g1.jobCount - 1 }) s.functions).map
        Prod.fst).Nodup := by
      rw [aupdate_keys]
      exact hfnd
    rcases mem_aupdate_nodup hnd2 hx with ⟨hxm, hxne⟩ | ⟨v, hv, hxv⟩
    · rcases mem_aupdate_nodup hfnd hxm with ⟨hxm2, -⟩ | ⟨w, hw, hxw⟩
      · obtain ⟨j', hj', hjfn', hjp'⟩ := hcoh x hxm2 p' id hid
        by_cases hidh : id = h
        · subst hidh
          rw [hj] at hj'
          injection hj' with hj'
          subst hj'
          refine ⟨{ j with worker := some cid }, ?_, hjfn', hjp'⟩
          rw [hjobs3, alookup_aupdate, if_pos rfl, hj]
          rfl
        · refine ⟨j', ?_, hjfn', hjp'⟩
          rw [hjobs3, alookup_aupdate, if_neg (fun hh => hidh hh.symm)]
          exact hj'
      · exact absurd (by rw [hxw]) hxne
    · rw [alookup_aupdate, if_pos rfl, hF] at hv
      simp only [Option.map_some'] at hv
      injection hv with hv
      subst hv
      subst hxv
      by_cases hp2 : p' = p
      · subst hp2
        have hid3 : id ∈ t := by
          have hid2 : id ∈ ({ f.setPlist p' (f.plist p').tail with
              jobCount :=
                (f.setPlist p' (f.plist p').tail).jobCount - 1 } :
              SFn).plist p' := hid
          rw [plist_jobCount, setPlist_plist_self, hpl, List.tail_cons]
            at hid2
          exact hid2
        have hidpl : id ∈ f.plist p' := by
          rw [hpl]
          exact List.mem_cons_of_mem _ hid3
        obtain ⟨j', hj', hjfn', hjp'⟩ :=
          hcoh (n, f) (alookup_mem_pair hnf) p' id hidpl
        have hidh : id ≠ h := fun hh => hnot_t (hh ▸ hid3)
        refine ⟨j', ?_, ?_, hjp'⟩
        · rw [hjobs3, alookup_aupdate, if_neg (fun hh => hidh hh.symm)]
          exact hj'
        · show j'.fn = j.fn
          rw [hjfn]
          exact hjfn'
      · have hid3 : id ∈ f.plist p' := by
          have hid2 : id ∈ ({ f.setPlist p (f.plist p).tail with
              jobCount :=
                (f.setPlist p (f.plist p).tail).jobCount - 1 } :
              SFn).plist p' := hid
          rw [plist_jobCount, setPlist_plist_ne f p p' _ hp2] at hid2
          exact hid2
        obtain ⟨j', hj', hjfn', hjp'⟩ :=
          hcoh (n, f) (alookup_mem_pair hnf) p' id hid3
        by_cases hidh : id = h
        · subst hidh
          exact absurd hid3 (hnot_other p' hp2)
        · refine ⟨j', ?_, ?_, hjp'⟩
          · rw [hjobs3, alookup_aupdate, if_neg (fun hh => hidh hh.symm)]
            exact hj'
          · show j'.fn = j.fn
            rw [hjfn]
            exact hjfn'
  · intro e he
    rw [hjobs3] at he
    rcases mem_aupdate_nodup hnd he with ⟨hmm, hne⟩ | ⟨v, hv, hev⟩
    · have h0 : fcount e.1 s.functions =
          (if e.2.worker = none ∧ e.2.ignore = false then 1 else 0) :=
        hinv e hmm
      show queuedCount S3 e.1 = _
      rw [queuedCount]
      have h1 := hfc e.1
      rw [if_neg (fun hh => hne hh.symm)] at h1
      omega
    · rw [hj] at hv
      injection hv with hv
      subst hv
      subst hev
      have hcond : ¬((((h, { j with worker := some cid }) :
          Nat × SJob)).2.worker = none ∧
          (((h, { j with worker := some cid }) :
          Nat × SJob)).2.ignore = false) := by
        intro hc
        exact Option.noConfusion hc.1
      rw [if_neg hcond]
      show queuedCount S3 h = 0
      rw [queuedCount]
      have h1 := hfc h
      rw [if_pos rfl] at h1
      omega

theorem functionGet_fcount (s : Server) (fname : List Nat) :
    ∀ x, fcount x (serverFunctionGet s fname).functions =
      fcount x s.functions := by
  intro x
  rw [serverFunctionGet]
  cases halk : alookup fname s.functions with
  | some f => rfl
  | none =>
    show newSFn.alllist.count x + fcount x s.functions = fcount x s.functions
    have h0 : newSFn.alllist.count x = 0 := rfl
    omega

/-- `gearman_server_function_get` preserves well-formedness and the
trichotomy: a fresh function record has empty lists. -/
theorem functionGet_preserves (s : Server) (fname : List Nat)
    (hwf : WFS s) (hinv : JobStateInv s) :
    WFS (serverFunctionGet s fname) ∧
    JobStateInv (serverFunctionGet s fname) := by
  obtain ⟨hnd, hfnd, hbound, hcoh⟩ := hwf
  rw [serverFunctionGet]
  cases halk : alookup fname s.functions with
  | some f => exact ⟨⟨hnd, hfnd, hbound, hcoh⟩, hinv⟩
  | none =>
    have hnotmem : fname ∉ s.functions.map Prod.fst := by
      intro hm
      have hs := alookup_isSome_of_mem hm
      rw [halk] at hs
      exact absurd hs (by simp)
    refine ⟨⟨hnd, ?_, ?_, ?_⟩, ?_⟩
    · show (((fname, newSFn) :: s.functions).map Prod.fst).Nodup
      rw [List.map_cons]
      exact List.nodup_cons.mpr ⟨hnotmem, hfnd⟩
    · intro e he
      obtain ⟨hlt, hfn⟩ := hbound e he
      refine ⟨hlt, ?_⟩
      show e.2.fn ∈ ((fname, newSFn) :: s.functions).map Prod.fst
      rw [List.map_cons]
      exact List.mem_cons_of_mem _ hfn
    · intro x hx q i hi
      have hx' : x ∈ (fname, newSFn) :: s.functions := hx
      rcases List.mem_cons.mp hx' with hh | hh
      · subst hh
        cases q <;> exact absurd hi (List.not_mem_nil i)
      · exact hcoh x hh q i hi
    · intro e he
      have h3 : fcount e.1 s.functions =
          (if e.2.worker = none ∧ e.2.ignore = false then 1 else 0) :=
        hinv e he
      show fcount e.1 ((fname, newSFn) :: s.functions) = _
      have h1 : fcount e.1 ((fname, newSFn) :: s.functions) =
          newSFn.alllist.count e.1 + fcount e.1 s.functions := rfl
      have h2 : newSFn.alllist.count e.1 = 0 := rfl
      omega

/-- The enqueue tail of `gearman_server_job_add` after a fresh job with id
`s0.nextJobId` was inserted: the finish queues the job onto its single list
slot (or, on the unreachable-under-success failure path, frees it), keeping
well-formedness and the trichotomy. -/
theorem add_finish_preserves (s0 : Server) (fname : List Nat) (J : SJob)
    (S : Server) (hc : Bool) (cb : QueueCallbacks) (io : Nat → GRet)
    (evs : List QEvent) (hio : ∀ n, io n = GRet.success)
    (hwf0 : WFS s0) (hinv0 : JobStateInv s0)
    (hmemf : fname ∈ s0.functions.map Prod.fst)
    (hJfn : J.fn = fname) (_hJw : J.worker = none)
    (hJig : J.ignore = false)
    (hjobsS : S.jobs = (s0.nextJobId, J) :: s0.jobs)
    (hfunsS : S.functions = aupdate fname
      (fun f => { f with jobTotal := f.jobTotal + 1 }) s0.functions)
    (hnextS : S.nextJobId = s0.nextJobId + 1) :
    WFS (jobAddFinish S s0.nextJobId hc cb io evs).state ∧
    JobStateInv (jobAddFinish S s0.nextJobId hc cb io evs).state := by
  obtain ⟨hnd0, hfnd0, hbound0, hcoh0⟩ := hwf0
  have hfresh : s0.nextJobId ∉ s0.jobs.map Prod.fst := by
    intro hm
    obtain ⟨e, he, hfe⟩ := List.mem_map.mp hm
    have hlt := (hbound0 e he).1
    omega
  have hcnt0 : fcount s0.nextJobId s0.functions = 0 := by
    apply fcount_eq_zero
    intro x hx hm
    obtain ⟨q, hq⟩ := plist_of_mem_alllist x.2 s0.nextJobId hm
    obtain ⟨j', hj', -, -⟩ := hcoh0 x hx q s0.nextJobId hq
    have hlt := (hbound0 (s0.nextJobId, j') (alookup_mem_pair hj')).1
    omega
  have hwfS : WFS S := by
    refine ⟨?_, ?_, ?_, ?_⟩
    · rw [hjobsS, List.map_cons]
      exact List.nodup_cons.mpr ⟨hfresh, hnd0⟩
    · rw [hfunsS, aupdate_keys]
      exact hfnd0
    · intro e he
      rw [hjobsS] at he
      rw [hnextS, hfunsS, aupdate_keys]
      rcases List.mem_cons.mp he with hh | hh
      · subst hh
        refine ⟨by omega, ?_⟩
        show J.fn ∈ _
        rw [hJfn]
        exact hmemf
      · obtain ⟨hlt, hfn⟩ := hbound0 e hh
        exact ⟨by omega, hfn⟩
    · intro x hx q id hid
      rw [hfunsS] at hx
      obtain ⟨y0, hy0, hk0, hp0⟩ := aupdate_plist_entries _ _ _
        (fun v q' => by cases q' <;> rfl) x hx
      rw [hp0 q] at hid
      obtain ⟨j', hj', hjfn', hjp'⟩ := hcoh0 y0 hy0 q id hid
      have hidne : id ≠ s0.nextJobId := by
        intro hh
        have hlt := (hbound0 (id, j') (alookup_mem_pair hj')).1
        omega
      refine ⟨j', ?_, by rw [hk0]; exact hjfn', hjp'⟩
      rw [hjobsS, alookup, if_neg (fun hh => hidne hh.symm)]
      exact hj'
  have hfcS : ∀ x, fcount x S.functions = fcount x s0.functions := by
    intro x
    rw [hfunsS, fcount_aupdate_pres x fname
      (fun f => { f with jobTotal := f.jobTotal + 1 }) _ (fun v => rfl)]
  have hinvS : ∀ e ∈ S.jobs, e.1 ≠ s0.nextJobId →
      queuedCount S e.1 =
        (if e.2.worker = none ∧ e.2.ignore = false then 1 else 0) := by
    intro e he hne
    rw [hjobsS] at he
    rcases List.mem_cons.mp he with hh | hh
    · exact absurd (by rw [hh]) hne
    · show queuedCount S e.1 = _
      rw [queuedCount, hfcS e.1]
      exact hinv0 e hh
  have hjS : alookup s0.nextJobId S.jobs = some J := by
    rw [hjobsS, alookup, if_pos rfl]
  have hcntS : queuedCount S s0.nextJobId = 0 := by
    rw [queuedCount, hfcS]
    exact hcnt0
  have hqs : (serverJobQueue S s0.nextJobId io).1 = GRet.success := by
    rw [serverJobQueue_success_eq S s0.nextJobId io J hjS hio]
  have hqp := queue_preserves S s0.nextJobId io J hio hjS hJig hcntS hinvS
    hwfS
  rw [jobAddFinish, if_pos hqs]
  exact hqp

/-- The rollback of `gearman_server_job_add` (adapter failure): freeing the
just-created job restores the jobs and functions of the pre-creation state,
so well-formedness and the trichotomy carry over. -/
theorem add_rollback_preserves (s0 : Server) (fname uniq dataArg : List Nat)
    (p : Priority) (key : Nat) (hwf0 : WFS s0) (hinv0 : JobStateInv s0) :
    WFS (serverJobFree (freshState s0 fname uniq dataArg p key)
      s0.nextJobId) ∧
    JobStateInv (serverJobFree (freshState s0 fname uniq dataArg p key)
      s0.nextJobId) := by
  obtain ⟨hnd0, hfnd0, hbound0, hcoh0⟩ := hwf0
  have hjobsF : (serverJobFree (freshState s0 fname uniq dataArg p key)
      s0.nextJobId).jobs = s0.jobs := by
    simp [serverJobFree, updateFn, freshJob, freshState, aerase, alookup]
  have hfunsF : (serverJobFree (freshState s0 fname uniq dataArg p key)
      s0.nextJobId).functions = s0.functions := by
    have h1 : (serverJobFree (freshState s0 fname uniq dataArg p key)
        s0.nextJobId).functions =
        aupdate fname (fun f => { f with jobTotal := f.jobTotal - 1 })
          (aupdate fname (fun g => { g with jobTotal := g.jobTotal + 1 })
            s0.functions) := by
      simp [serverJobFree, updateFn, freshJob, freshState, alookup]
    rw [h1, aupdate_total_cancel]
  have hnextF : (serverJobFree (freshState s0 fname uniq dataArg p key)
      s0.nextJobId).nextJobId = s0.nextJobId + 1 := by
    simp [serverJobFree, updateFn, freshJob, freshState, alookup]
  refine ⟨⟨?_, ?_, ?_, ?_⟩, ?_⟩
  · rw [hjobsF]
    exact hnd0
  · rw [hfunsF]
    exact hfnd0
  · intro e he
    rw [hjobsF] at he
    obtain ⟨hlt, hfn⟩ := hbound0 e he
    rw [hnextF, hfunsF]
    exact ⟨by omega, hfn⟩
  · intro x hx q id hid
    rw [hfunsF] at hx
    obtain ⟨j', hj', hjfn', hjp'⟩ := hcoh0 x hx q id hid
    refine ⟨j', ?_, hjfn', hjp'⟩
    rw [hjobsF]
    exact hj'
  · intro e he
    rw [hjobsF] at he
    show queuedCount _ e.1 = _
    rw [queuedCount, hfunsF]
    exact hinv0 e he

/-- `gearman_server_job_add` with succeeding packet enqueues preserves
well-formedness and the trichotomy through every branch: dedup hit, full
rejection, replay, adapter success, adapter rollback, and plain enqueue. -/
theorem add_preserves (s : Server) (fname uniq dataArg : List Nat)
    (p : Priority) (hc : Bool) (cb : QueueCallbacks) (io : Nat → GRet)
    (g : Nat) (hio : ∀ n, io n = GRet.success) (hwf : WFS s)
    (hinv : JobStateInv s) :
    WFS (serverJobAdd s fname uniq dataArg p hc cb io g).state ∧
    JobStateInv (serverJobAdd s fname uniq dataArg p hc cb io g).state := by
  obtain ⟨hwf0, hinv0⟩ := functionGet_preserves s fname hwf hinv
  have hmemf := serverFunctionGet_mem s fname
  have hjobsS : (updateJob (freshState (serverFunctionGet s fname) fname uniq
      dataArg p (jobAddKey uniq dataArg g))
      (serverFunctionGet s fname).nextJobId
      (fun j => { j with queuedFlag := true })).jobs =
      ((serverFunctionGet s fname).nextJobId,
        { freshJob (serverFunctionGet s fname) fname uniq dataArg p
          (jobAddKey uniq dataArg g) with queuedFlag := true }) ::
      (serverFunctionGet s fname).jobs := by
    show aupdate (serverFunctionGet s fname).nextJobId
      (fun j => { j with queuedFlag := true })
      (((serverFunctionGet s fname).nextJobId,
        freshJob (serverFunctionGet s fname) fname uniq dataArg p
          (jobAddKey uniq dataArg g)) ::
        (serverFunctionGet s fname).jobs) = _
    rw [aupdate, if_pos rfl]
  simp only [serverJobAdd]
  split
  · exact ⟨hwf0, hinv0⟩
  split
  · exact ⟨hwf0, hinv0⟩
  split
  · exact add_finish_preserves (serverFunctionGet s fname) fname
      ({ freshJob (serverFunctionGet s fname) fname uniq dataArg p
        (jobAddKey uniq dataArg g) with queuedFlag := true }) _ hc cb io _
      hio hwf0 hinv0 hmemf rfl rfl rfl hjobsS rfl rfl
  split
  · split
    · exact add_rollback_preserves (serverFunctionGet s fname) fname uniq
        dataArg p (jobAddKey uniq dataArg g) hwf0 hinv0
    split
    · exact add_rollback_preserves (serverFunctionGet s fname) fname uniq
        dataArg p (jobAddKey uniq dataArg g) hwf0 hinv0
    · exact add_finish_preserves (serverFunctionGet s fname) fname
        ({ freshJob (serverFunctionGet s fname) fname uniq dataArg p
          (jobAddKey uniq dataArg g) with queuedFlag := true }) _ hc cb io _
        hio hwf0 hinv0 hmemf rfl rfl rfl hjobsS rfl rfl
  · exact add_finish_preserves (serverFunctionGet s fname) fname
      (freshJob (serverFunctionGet s fname) fname uniq dataArg p
        (jobAddKey uniq dataArg g)) _ hc cb io _
      hio hwf0 hinv0 hmemf rfl rfl rfl rfl rfl rfl

/-- C3.  State trichotomy: starting from a well-formed broker in which every
live job sits on exactly one priority-list slot exactly when its worker is
nil and IGNORE is clear (queued / running / logically-deleted trichotomy),
every operation — `gearman_server_job_add`, `_queue`, `_peek`, `_take`,
`_free` — used as the C call sites use it (`opOK`) re-establishes both the
well-formedness and the trichotomy. -/
theorem job_state_trichotomy (io : Nat → GRet) (s : Server) (op : Op)
    (hwf : WFS s) (hinv : JobStateInv s) (hok : opOK io s op) :
    WFS (stepOp io s op) ∧ JobStateInv (stepOp io s op) := by
  cases op with
  | add fname uniq dataArg p hc cb g =>
    exact add_preserves s fname uniq dataArg p hc cb io g hok hwf hinv
  | queue i =>
    obtain ⟨hio, ⟨j, hj, hig⟩, hcnt⟩ := hok
    exact queue_preserves s i io j hio hj hig hcnt
      (fun e he _ => hinv e he) hwf
  | peek cid =>
    show WFS (serverJobPeek s cid).2 ∧ JobStateInv (serverJobPeek s cid).2
    rw [peek_state_eq s cid hinv]
    exact ⟨hwf, hinv⟩
  | take cid => exact take_preserves s cid hwf hinv
  | free i => exact free_preserves s i hwf hinv hok

/-- Witness for C3: submitting a job to the empty broker (trivially
well-formed, trivially trichotomous) yields a state that is again
well-formed and trichotomous. -/
theorem job_state_trichotomy_witness :
    WFS (stepOp okIo emptyServer
      (Op.add [102] [117] [] Priority.normal true noCb 0)) ∧
    JobStateInv (stepOp okIo emptyServer
      (Op.add [102] [117] [] Priority.normal true noCb 0)) :=
  job_state_trichotomy okIo emptyServer
    (Op.add [102] [117] [] Priority.normal true noCb 0)
    ⟨List.nodup_nil, List.nodup_nil,
     fun e he => absurd he (List.not_mem_nil e),
     fun x hx => absurd hx (List.not_mem_nil x)⟩
    (fun e he => absurd he (List.not_mem_nil e))
    (fun _ => rfl)

end Gearman
